import Mathlib

/-! # PR Approval Finder: a verification development

A shallow embedding of the client (`src/client/src/App.js`) and of the
ownership-resolution engine described by the specification, followed by the
theorems that settle the specification's claims.

Layout: all definitions first (client, number model, engine), then lemmas and
theorems.
-/

namespace PRChecker

/-! ## JavaScript helpers -/

/-- JavaScript `s || undefined` for a string `s`: the empty string is falsy. -/
def orUndefined (s : String) : Option String :=
  if s = "" then none else some s

/-- JavaScript `a || b` for two optional strings: `a` when it is present and
non-empty, otherwise `b` unchanged. -/
def orElseStr (a b : Option String) : Option String :=
  match a with
  | some s => if s = "" then b else some s
  | none => b

/-- JavaScript `Array.prototype.includes` on an array of strings with a possibly
`undefined` needle: strict equality, so `undefined` is never found. -/
def includesOpt (xs : List String) (x : Option String) : Bool :=
  match x with
  | some s => xs.contains s
  | none => false

/-- JavaScript `String(x)` for a possibly `undefined` string. -/
def toStringOpt (x : Option String) : String :=
  match x with
  | some s => s
  | none => "undefined"

/-- JavaScript `String.prototype.endsWith`. -/
def endsWith (s suffix : String) : Bool :=
  suffix.data.isSuffixOf s.data

/-! ## Numbers

`calculateProgress` computes `Math.round((completed / total) * 100)` on
JavaScript Numbers, that is IEEE 754 binary64 values with round-to-nearest,
ties-to-even.  Non-negative finite values are held exactly as fractions; the
rounding of each operation is computed on integers.  Only the normal range is
modelled (no subnormals, no overflow), which covers every quotient of two array
lengths and its product with 100. -/

/-- A finite non-negative Number, held exactly as `num / den`. -/
structure JsNumber where
  num : Nat
  den : Nat
deriving DecidableEq, Repr

/-- Nearest integer to `n / d`, ties to the even neighbour. -/
def roundHalfEven (n d : Nat) : Nat :=
  let q := n / d
  let r := n % d
  if 2 * r < d then q
  else if d < 2 * r then q + 1
  else if q % 2 = 0 then q else q + 1

/-- Number of binary digits of `n` (the recursion is bounded by the first
argument, which callers set to `n`). -/
def bitLength : Nat → Nat → Nat
  | 0, _ => 0
  | fuel + 1, n => if n = 0 then 0 else bitLength fuel (n / 2) + 1

/-- The binary64 value nearest to the positive fraction `n / d`: the fraction is
scaled by a power of two so that it lies in `[2^52, 2^53)`, rounded to an
integer significand (ties to even) and scaled back. -/
def roundToDouble (n d : Nat) : JsNumber :=
  if n = 0 then ⟨0, 1⟩
  else
    let e0 : Int := (bitLength n n : Int) - (bitLength d d : Int)
    let e : Int :=
      if (if 0 ≤ e0 then d * 2 ^ e0.toNat ≤ n else d ≤ n * 2 ^ (-e0).toNat) then e0
      else e0 - 1
    let k : Int := 52 - e
    if 0 ≤ k then ⟨roundHalfEven (n * 2 ^ k.toNat) d, 2 ^ k.toNat⟩
    else ⟨roundHalfEven n (d * 2 ^ (-k).toNat) * 2 ^ (-k).toNat, 1⟩

/-- An array length as a Number (exact). -/
def JsNumber.ofNat (n : Nat) : JsNumber := ⟨n, 1⟩

/-- Number division `x / y` (`y` non-zero). -/
def JsNumber.div (x y : JsNumber) : JsNumber := roundToDouble (x.num * y.den) (x.den * y.num)

/-- Number multiplication `x * y`. -/
def JsNumber.mul (x y : JsNumber) : JsNumber := roundToDouble (x.num * y.num) (x.den * y.den)

/-- JavaScript `Math.round`: the integer nearest to `x`, ties towards +∞, which is
`floor (x + 1/2)`. -/
def mathRound (x : JsNumber) : Nat := (2 * x.num + x.den) / (2 * x.den)

/-! ## Client data (the report consumed by `App.js`) -/

/-- A team member as listed in `team.members`. -/
structure Member where
  login : Option String
  username : Option String
  name : Option String
deriving DecidableEq, Repr

/-- An entry of `ownerDetails` / `allUserDetails`; an absent field is
`undefined`. -/
structure UserDetail where
  username : String
  name : Option String
  type : Option String
  members : Option (List Member)
deriving DecidableEq, Repr

/-- An entry of `minRequiredApprovals`. -/
structure GroupView where
  files : List String
  needsApproval : Bool
  approvedBy : Option String
  approverType : Option String
  teamName : Option String
  approvedTeamMembers : Option (List String)
  ownerDetails : List UserDetail
deriving DecidableEq, Repr

/-- The response of `/api/pr-approvers` held in the `result` state. -/
structure Report where
  minRequiredApprovals : Option (List GroupView)
  allUserDetails : List UserDetail
  approvals : List String
  requestedReviewers : List String
  teamsConfigured : Bool
deriving DecidableEq, Repr

/-! ## Client: request bodies -/

/-- Body posted to `/api/pr-approvers`. -/
structure PrApproversBody where
  prUrl : String
  githubToken : Option String
deriving DecidableEq, Repr

/-- Value of `repoInfo` in `handleSubmit`. -/
structure RepoInfo where
  owner : String
  repo : String
  prNumber : String
deriving DecidableEq, Repr

/-- Body posted to `/api/ml/predict`; `confidence` holds the literal `0.001`
as the decimal fraction 1/1000. -/
structure MlPredictBody where
  files : List String
  confidence : Nat × Nat
  owner : Option String
  repo : Option String
  token : String
deriving DecidableEq, Repr

/-- The request body built by `handleSubmit`:
`{ prUrl, githubToken: githubToken || undefined }`. -/
def handleSubmitBody (prUrl githubToken : String) : PrApproversBody :=
  { prUrl := prUrl, githubToken := orUndefined githubToken }

/-- The request body built by `getMlPredictions (files, repoInfo)`, which reads
the `githubToken` state. -/
def getMlPredictionsBody (githubToken : String) (files : List String)
    (repoInfo : Option RepoInfo) : MlPredictBody :=
  { files := files
    confidence := (1, 1000)
    owner := repoInfo.map (·.owner)
    repo := repoInfo.map (·.repo)
    token := githubToken }

/-! ## Client: progress -/

/-- Result of `calculateProgress`. -/
structure Progress where
  completed : Nat
  total : Nat
  percentage : Nat
deriving DecidableEq, Repr

/-- The function `calculateProgress` over the `result` state. -/
def calculateProgress (result : Option Report) : Progress :=
  match result.bind (·.minRequiredApprovals) with
  | none => { completed := 0, total := 0, percentage := 0 }
  | some groups =>
    let total := groups.length
    let completed := (groups.filter (fun group => !group.needsApproval)).length
    let percentage :=
      if total > 0 then
        mathRound
          (JsNumber.mul (JsNumber.div (JsNumber.ofNat completed) (JsNumber.ofNat total))
            (JsNumber.ofNat 100))
      else 0
    { completed := completed, total := total, percentage := percentage }

/-! ## Client: approval marks on cards -/

/-- The flag `isApproved` of a card under "All Possible Reviewers". -/
def reviewerIsApproved (result : Report) (user : UserDetail) : Bool :=
  result.approvals.contains user.username

/-- The flag `isRequested` of a card under "All Possible Reviewers". -/
def reviewerIsRequested (result : Report) (user : UserDetail) : Bool :=
  result.requestedReviewers.contains user.username

/-- The test `group.teamName === user.username ||
group.teamName?.endsWith(user.name)` shared by the owner-card flags. -/
def teamNameMatches (group : GroupView) (user : UserDetail) : Bool :=
  group.teamName == some user.username ||
    (match group.teamName with
     | some t => endsWith t (toStringOpt user.name)
     | none => false)

/-- The flag `isApproved` of an owner card inside a group. -/
def ownerIsApproved (group : GroupView) (user : UserDetail) : Bool :=
  !group.needsApproval &&
    (some user.username == group.approvedBy ||
      (user.type == some "team" && teamNameMatches group user))

/-- The list `approvedMembers` handed to an owner card inside a group. -/
def ownerApprovedMembers (group : GroupView) (user : UserDetail) : List String :=
  if user.type == some "team" && teamNameMatches group user then
    group.approvedTeamMembers.getD []
  else []

/-- In `renderTeamCard`: `member.login || member.username`. -/
def memberUsername (member : Member) : Option String :=
  orElseStr member.login member.username

/-- In `renderTeamCard`: `approvedMembers.includes(memberUsername)`. -/
def memberApproved (approvedMembers : List String) (member : Member) : Bool :=
  includesOpt approvedMembers (memberUsername member)

/-! ## Letter case (used to state the case-insensitive reading of handles) -/

/-- Two handles that are equal up to ASCII letter case. -/
def eqIgnoreCase (a b : String) : Bool :=
  a.data.map Char.toLower == b.data.map Char.toLower

/-! ## Engine data model (specification §3)

The server that implements the engine is not part of the sources at hand; the
engine is modelled from the specification. -/

/-- Modelled from the spec: `OwnerRef`, the tagged union
`User{handle} | Team{slug}` of §3 (the server code is missing). -/
inductive OwnerRef where
  | User (handle : String)
  | Team (slug : String)
deriving DecidableEq, Repr

/-- Modelled from the spec: `OwnershipRule` of §3 (the server code is missing);
rule order is the order of the enclosing list. -/
structure OwnershipRule where
  pattern : String
  owners : List OwnerRef
deriving DecidableEq, Repr

/-- Modelled from the spec: `FileOwnership` of §3 (the server code is
missing). -/
structure FileOwnership where
  path : String
  matchedPattern : Option OwnershipRule
  owners : List OwnerRef
deriving DecidableEq, Repr

/-- Modelled from the spec: `ApprovalGroup` of §3 (the server code is
missing). -/
structure ApprovalGroup where
  files : List String
  owners : List OwnerRef
  satisfied : Bool
  satisfiedBy : Option OwnerRef
  satisfyingTeamMembers : List String
deriving DecidableEq, Repr

/-- Modelled from the spec: `Team` of §3 (the server code is missing). -/
structure Team where
  slug : String
  displayName : String
  members : List String
  membersResolvable : Bool
deriving DecidableEq, Repr

/-- Modelled from the spec: `ReviewState` of §3 (the server code is
missing). -/
structure ReviewState where
  approvals : List String
  requestedReviewers : List String
deriving DecidableEq, Repr

/-- Modelled from the spec: the `AnalysisReport` of §6 (the server code is
missing); the group views are the evaluated groups themselves, and
`allUserDetails` (display data) is left out. -/
structure AnalysisReport where
  minRequiredApprovals : List ApprovalGroup
  fileApprovalDetails : List FileOwnership
  totalGroupsNeedingApproval : Nat
  approvals : List String
  requestedReviewers : List String
  teamsConfigured : Bool
deriving DecidableEq, Repr

/-! ## Engine: text helpers -/

/-- Split a character list at every character satisfying `p`. -/
def splitBy (p : Char → Bool) : List Char → List (List Char)
  | [] => [[]]
  | c :: cs =>
    if p c then [] :: splitBy p cs
    else
      match splitBy p cs with
      | [] => [[c]]
      | s :: ss => (c :: s) :: ss

/-- The non-empty pieces of `l` between characters satisfying `p`. -/
def pieces (p : Char → Bool) (l : List Char) : List (List Char) :=
  (splitBy p l).filter (fun s => !s.isEmpty)

/-- Lower-case form of a handle. -/
def lowerHandle (h : String) : String := String.mk (h.data.map Char.toLower)

/-- Lexicographic order on character lists by code point. -/
def lexLe : List Char → List Char → Bool
  | [], _ => true
  | _ :: _, [] => false
  | a :: as, b :: bs =>
    if a.toNat < b.toNat then true
    else if b.toNat < a.toNat then false
    else lexLe as bs

/-- Whether some suffix of `l` (including `l` itself and `[]`) satisfies `f`. -/
def anySuffix {α : Type} (f : List α → Bool) : List α → Bool
  | [] => f []
  | x :: xs => f (x :: xs) || anySuffix f xs

/-! ## Engine: rule parser (§4.1) -/

/-- Modelled from the spec: an owner token is tagged `Team` when it has the
`org/team-slug` shape and `User` otherwise; a leading `@` is not part of the
identifier (the server code is missing). -/
def parseOwner (token : List Char) : OwnerRef :=
  let ident := match token with
    | '@' :: rest => rest
    | _ => token
  if ident.contains '/' then OwnerRef.Team (String.mk ident)
  else OwnerRef.User (String.mk ident)

/-- Modelled from the spec: equality of owner references, by tag and
identifier, case-insensitive for handles (§3; the server code is missing). -/
def OwnerRef.sameAs : OwnerRef → OwnerRef → Bool
  | OwnerRef.User a, OwnerRef.User b => eqIgnoreCase a b
  | OwnerRef.Team a, OwnerRef.Team b => a == b
  | _, _ => false

/-- Modelled from the spec: an owner list as an ordered set, keeping the first
occurrence of every owner (§3; the server code is missing). -/
def dedupOwners : List OwnerRef → List OwnerRef
  | [] => []
  | o :: os => o :: (dedupOwners os).filter (fun x => !(x.sameAs o))

/-- Modelled from the spec: one line of the rules text; blank lines and lines
beginning with `#` give no rule, any other line gives its first token as the
pattern and the remaining tokens as owners, possibly none (§4.1; the server
code is missing). -/
def parseLine (line : List Char) : Option OwnershipRule :=
  match line with
  | '#' :: _ => none
  | _ =>
    match pieces Char.isWhitespace line with
    | [] => none
    | pattern :: owners =>
      some { pattern := String.mk pattern, owners := dedupOwners (owners.map parseOwner) }

/-- Modelled from the spec: the Rule Parser of §4.1, from rules text to the
ordered rule list (the server code is missing). -/
def parseRules (rulesText : String) : List OwnershipRule :=
  (splitBy (fun c => c == '\n') rulesText.data).filterMap parseLine

/-! ## Engine: pattern matcher (§4.2) -/

/-- Modelled from the spec: match of one pattern segment against one path
segment, where `*` stands for any run of characters inside the segment (§4.2;
the server code is missing). -/
def globSeg : List Char → List Char → Bool
  | [], t => t.isEmpty
  | c :: p, t =>
    if c = '*' then anySuffix (globSeg p) t
    else
      match t with
      | [] => false
      | d :: t' => c == d && globSeg p t'

/-- Modelled from the spec: match of pattern segments against path segments,
where a segment `**` stands for any number of path segments (§4.2; the server
code is missing). -/
def matchSegs : List (List Char) → List (List Char) → Bool
  | [], segs => segs.isEmpty
  | p :: ps, segs =>
    if p = ['*', '*'] then anySuffix (matchSegs ps) segs
    else
      match segs with
      | [] => false
      | s :: ss => globSeg p s && matchSegs ps ss

/-- Modelled from the spec: the Pattern Matcher of §4.2 (the server code is
missing).  A pattern without `/` is matched against the basename; a trailing
`/` stands for everything below the directory; a leading `/`, or a `/` inside
the pattern, anchors the pattern at the root; a pattern whose only `/` is the
trailing one names a directory at any depth. -/
def patternMatches (pattern path : String) : Bool :=
  let p := pattern.data
  let isSlash := fun c : Char => c == '/'
  let segs := pieces isSlash path.data
  if !p.contains '/' then
    match segs.getLast? with
    | some base => globSeg p base
    | none => false
  else
    let dirOnly := p.getLast? == some '/'
    let psegs := pieces isSlash p
    let full := if dirOnly then psegs ++ [['*'], ['*', '*']] else psegs
    let anchored := p.dropLast.contains '/'
    if anchored then matchSegs full segs else anySuffix (matchSegs full) segs

/-! ## Engine: ownership resolver (§4.3) -/

/-- Modelled from the spec: scan of the rules in declared order that remembers
the last rule whose pattern matches (§4.3; the server code is missing). -/
def lastMatch (rules : List OwnershipRule) (path : String) : Option OwnershipRule :=
  rules.foldl (fun remembered rule =>
    if patternMatches rule.pattern path then some rule else remembered) none

/-- Modelled from the spec: the Ownership Resolver of §4.3 for one changed
file (the server code is missing). -/
def resolveFile (rules : List OwnershipRule) (path : String) : FileOwnership :=
  let remembered := lastMatch rules path
  { path := path
    matchedPattern := remembered
    owners := match remembered with
      | some rule => rule.owners
      | none => [] }

/-- Modelled from the spec: a file is flagged unowned when its owner set is
empty (§3; the server code is missing). -/
def FileOwnership.unowned (fo : FileOwnership) : Bool := fo.owners.isEmpty

/-! ## Engine: group builder (§4.4) -/

/-- Modelled from the spec: the identifier under which an owner enters the
canonical signature, tag first (§4.4; the server code is missing). -/
def OwnerRef.key : OwnerRef → String
  | OwnerRef.User handle => "user:" ++ lowerHandle handle
  | OwnerRef.Team slug => "team:" ++ slug

/-- Insert a key into a sorted key list, keeping it sorted and free of
duplicates. -/
def insertKey (k : String) : List String → List String
  | [] => [k]
  | x :: xs =>
    if k = x then x :: xs
    else if lexLe k.data x.data then k :: x :: xs
    else x :: insertKey k xs

/-- Sort a key list (by tag, then identifier) and drop duplicates. -/
def sortKeys : List String → List String
  | [] => []
  | k :: ks => insertKey k (sortKeys ks)

/-- Modelled from the spec: the canonical owner-set signature, the owners
sorted by tag then identifier and joined into one key (§4.4; the server code is
missing). -/
def signature (owners : List OwnerRef) : String :=
  String.intercalate " " (sortKeys (owners.map OwnerRef.key))

/-- Modelled from the spec: a fresh, not yet evaluated group holding one file
(§4.4; the server code is missing). -/
def newGroup (fo : FileOwnership) : ApprovalGroup :=
  { files := [fo.path]
    owners := fo.owners
    satisfied := false
    satisfiedBy := none
    satisfyingTeamMembers := [] }

/-- Modelled from the spec: put one file into the group that carries its
signature, or open a new group after the existing ones (§4.4; the server code
is missing). -/
def addToGroups (fo : FileOwnership) : List ApprovalGroup → List ApprovalGroup
  | [] => [newGroup fo]
  | g :: gs =>
    if signature g.owners = signature fo.owners then
      { g with files := g.files ++ [fo.path] } :: gs
    else g :: addToGroups fo gs

/-- Modelled from the spec: the Group Builder of §4.4, which partitions the
file ownerships by signature in first-occurrence order (the server code is
missing). -/
def buildGroups (ownerships : List FileOwnership) : List ApprovalGroup :=
  ownerships.foldl (fun groups fo => addToGroups fo groups) []

/-- Modelled from the spec: a group is flagged unowned when its owner set is
empty (§4.4, §4.6; the server code is missing). -/
def ApprovalGroup.unowned (g : ApprovalGroup) : Bool := g.owners.isEmpty

/-- Modelled from the spec: `needsApproval (= !satisfied)` of the group view
(§6; the server code is missing). -/
def ApprovalGroup.needsApproval (g : ApprovalGroup) : Bool := !g.satisfied

/-! ## Engine: team resolver (§4.5) -/

/-- Modelled from the spec: the team slugs among a list of owners (§4.5; the
server code is missing). -/
def teamSlugsOf : List OwnerRef → List String
  | [] => []
  | OwnerRef.Team slug :: os => slug :: teamSlugsOf os
  | OwnerRef.User _ :: os => teamSlugsOf os

/-- Modelled from the spec: resolution of one team through the collaborator;
a team whose members cannot be listed keeps an empty member list (§4.5; the
server code is missing). -/
def resolveTeam (teamLookup : String → Team) (slug : String) : Team :=
  let t := teamLookup slug
  { slug := slug
    displayName := t.displayName
    members := if t.membersResolvable then t.members else []
    membersResolvable := t.membersResolvable }

/-- Modelled from the spec: the Team Resolver of §4.5, one lookup per distinct
team referenced by the groups (the server code is missing). -/
def resolveTeams (teamLookup : String → Team) (groups : List ApprovalGroup) : List Team :=
  ((groups.map (fun g => teamSlugsOf g.owners)).flatten.eraseDups).map (resolveTeam teamLookup)

/-! ## Engine: approval evaluator (§4.6) -/

/-- Modelled from the spec: a handle is present in a set of handles, handles
being compared case-insensitively (§3; the server code is missing). -/
def handlePresent (handles : List String) (h : String) : Bool :=
  handles.any (fun a => eqIgnoreCase a h)

/-- Modelled from the spec: the resolved members of a team according to the
rosters, none when the team has no roster (§4.6; the server code is
missing). -/
def resolvedMembers (rosters : List Team) (slug : String) : List String :=
  match rosters.find? (fun t => t.slug == slug) with
  | some t => t.members
  | none => []

/-- Modelled from the spec: the resolved members of a team that are present in
the approvals (§4.6; the server code is missing). -/
def approvingMembers (rosters : List Team) (reviewState : ReviewState) (slug : String) :
    List String :=
  (resolvedMembers rosters slug).filter (handlePresent reviewState.approvals)

/-- Modelled from the spec: whether one owner satisfies its group, the three
clauses of §4.6 (the server code is missing). -/
def ownerSatisfied (rosters : List Team) (reviewState : ReviewState) : OwnerRef → Bool
  | OwnerRef.User handle => handlePresent reviewState.approvals handle
  | OwnerRef.Team slug =>
    !(approvingMembers rosters reviewState slug).isEmpty || reviewState.approvals.contains slug

/-- Modelled from the spec: the Approval Evaluator of §4.6 for one group; the
first satisfying owner in declaration order is recorded (the server code is
missing). -/
def evaluateGroup (rosters : List Team) (reviewState : ReviewState) (g : ApprovalGroup) :
    ApprovalGroup :=
  match g.owners.find? (ownerSatisfied rosters reviewState) with
  | none =>
    { g with satisfied := false, satisfiedBy := none, satisfyingTeamMembers := [] }
  | some owner =>
    { g with
      satisfied := true
      satisfiedBy := some owner
      satisfyingTeamMembers :=
        match owner with
        | OwnerRef.User _ => []
        | OwnerRef.Team slug => approvingMembers rosters reviewState slug }

/-! ## Engine: the operation `resolveApprovals` (§6, §7) -/

/-- Modelled from the spec: the single operation of §6 (the server code is
missing).  With no changed files or no rules the report has zero groups
(EmptyInput, §7); otherwise the data flows through parser, resolver, group
builder, team resolver and evaluator. -/
def resolveApprovals (changedFiles : List String) (rulesText : String)
    (reviewState : ReviewState) (teamLookup : String → Team) : AnalysisReport :=
  let rules := parseRules rulesText
  let ownerships := changedFiles.map (resolveFile rules)
  let groups :=
    if changedFiles.isEmpty || rules.isEmpty then []
    else
      let built := buildGroups ownerships
      built.map (evaluateGroup (resolveTeams teamLookup built) reviewState)
  { minRequiredApprovals := groups
    fileApprovalDetails := ownerships
    totalGroupsNeedingApproval := (groups.filter (fun g => g.needsApproval)).length
    approvals := reviewState.approvals
    requestedReviewers := reviewState.requestedReviewers
    teamsConfigured := !(groups.map (fun g => teamSlugsOf g.owners)).flatten.isEmpty }

/-! ## Client: recent PR history and `localStorage` -/

/-- The fields of `prData.prInfo` read by `addToRecentPRs`. -/
structure PrInfo where
  url : String
  title : String
  number : Nat
  author : String
deriving DecidableEq, Repr

/-- The fields of the response (`prData`) read by `addToRecentPRs`. -/
structure PrData where
  prInfo : PrInfo
  minRequiredApprovals : List GroupView
  totalGroupsNeedingApproval : Nat
deriving DecidableEq, Repr

/-- An entry of the `recentPRs` state. -/
structure RecentPR where
  url : String
  title : String
  number : Nat
  author : String
  analyzedAt : String
  totalGroups : Nat
  needsApproval : Nat
deriving DecidableEq, Repr

/-- The entry `newPR` built by `addToRecentPRs`; `analyzedAt` is the value of
`new Date().toISOString()` at the call. -/
def newRecentPR (analyzedAt : String) (prData : PrData) : RecentPR :=
  { url := prData.prInfo.url
    title := prData.prInfo.title
    number := prData.prInfo.number
    author := prData.prInfo.author
    analyzedAt := analyzedAt
    totalGroups := prData.minRequiredApprovals.length
    needsApproval := prData.totalGroupsNeedingApproval }

/-- The state update of `addToRecentPRs`: the list `updated` computed from the
previous history `prev`. -/
def addToRecentPRs (analyzedAt : String) (prData : PrData) (prev : List RecentPR) :
    List RecentPR :=
  let newPR := newRecentPR analyzedAt prData
  let filtered := prev.filter (fun pr => pr.url != newPR.url)
  (newPR :: filtered).take 10

/-- The state update of `deleteFromHistory`: the list `filtered` computed from
the previous history `prev`. -/
def deleteFromHistory (urlToDelete : String) (prev : List RecentPR) : List RecentPR :=
  prev.filter (fun pr => pr.url != urlToDelete)

/-- A value handed to `localStorage.setItem`: a plain string, or the history
that `JSON.stringify` serialises. -/
inductive StorageValue where
  | text (value : String)
  | history (entries : List RecentPR)
deriving DecidableEq, Repr

/-- A write to `localStorage`. -/
inductive StorageOp where
  | setItem (key : String) (value : StorageValue)
  | removeItem (key : String)
deriving DecidableEq, Repr

/-- The part of the component state that the writing operations read or
change, together with the token. -/
structure AppState where
  prUrl : String
  githubToken : String
  recentPRs : List RecentPR
  currentTheme : String
  showHistory : Bool
  showThemeDropdown : Bool
  isFirstTimeUser : Bool
deriving DecidableEq, Repr

/-- The operations of the app that touch this state: typing into the two
inputs, `changeTheme`, a successful `handleSubmit` (which calls
`addToRecentPRs` on the response), `loadFromHistory`, `clearHistory`,
`deleteFromHistory` and a click on the approvals info button. -/
inductive AppEvent where
  | setPrUrl (value : String)
  | setGithubToken (value : String)
  | changeTheme (themeId : String)
  | analysed (analyzedAt : String) (prData : PrData)
  | loadFromHistory (prUrl : String)
  | clearHistory
  | deleteFromHistory (urlToDelete : String)
  | openApprovalsInfo
deriving DecidableEq, Repr

/-- One operation: the next state and the `localStorage` writes it performs. -/
def step (s : AppState) : AppEvent → AppState × List StorageOp
  | AppEvent.setPrUrl value => ({ s with prUrl := value }, [])
  | AppEvent.setGithubToken value => ({ s with githubToken := value }, [])
  | AppEvent.changeTheme themeId =>
    ({ s with currentTheme := themeId, showThemeDropdown := false },
      [StorageOp.setItem "currentTheme" (StorageValue.text themeId)])
  | AppEvent.analysed analyzedAt prData =>
    let updated := addToRecentPRs analyzedAt prData s.recentPRs
    ({ s with recentPRs := updated },
      [StorageOp.setItem "recentPRs" (StorageValue.history updated)])
  | AppEvent.loadFromHistory prUrl => ({ s with prUrl := prUrl, showHistory := false }, [])
  | AppEvent.clearHistory =>
    ({ s with recentPRs := [], showHistory := false }, [StorageOp.removeItem "recentPRs"])
  | AppEvent.deleteFromHistory urlToDelete =>
    let filtered := deleteFromHistory urlToDelete s.recentPRs
    ({ s with recentPRs := filtered },
      [StorageOp.setItem "recentPRs" (StorageValue.history filtered)])
  | AppEvent.openApprovalsInfo =>
    if s.isFirstTimeUser then
      ({ s with isFirstTimeUser := false },
        [StorageOp.setItem "hasSeenInfoModal" (StorageValue.text "true")])
    else (s, [])

/-- A sequence of operations: the final state and all `localStorage` writes in
order. -/
def run (s : AppState) : List AppEvent → AppState × List StorageOp
  | [] => (s, [])
  | e :: es =>
    let r := step s e
    let rest := run r.1 es
    (rest.1, r.2 ++ rest.2)

/-- The state with the token blanked. -/
def AppState.eraseToken (s : AppState) : AppState := { s with githubToken := "" }

/-- The operation with the token it carries blanked. -/
def AppEvent.eraseToken : AppEvent → AppEvent
  | AppEvent.setGithubToken _ => AppEvent.setGithubToken ""
  | e => e

/-! ## Client: approval chances -/

/-- An entry of `mlPredictions.predictions` / `generalPredictions.predictions`. -/
structure Prediction where
  approver : String
  confidence : JsNumber
  isFallback : Option Bool
deriving DecidableEq, Repr

/-- The state `mlPredictions` / `generalPredictions` when it is not `null`. -/
structure PredictionSet where
  predictions : Option (List Prediction)
deriving DecidableEq, Repr

/-- Result of `getMLApprovalChance`. -/
structure MLChance where
  percentage : JsNumber
  isFallback : Bool
deriving DecidableEq, Repr

/-- Result of `getGeneralMLApprovalChance`. -/
structure GeneralChance where
  percentage : JsNumber
  isGeneral : Bool
deriving DecidableEq, Repr

/-- The lookup shared by both functions: `find` with the exact name, then
`find` with the name prefixed by `@` if the first gave nothing. -/
def findPrediction (predictions : List Prediction) (username : String) : Option Prediction :=
  match predictions.find? (fun p => p.approver == username) with
  | some prediction => some prediction
  | none => predictions.find? (fun p => p.approver == "@" ++ username)

/-- The displayed number: `percentage >= 1 ? Math.round(percentage) :
Math.round(percentage * 10) / 10` for `percentage = confidence * 100`. -/
def chancePercentage (confidence : JsNumber) : JsNumber :=
  let percentage := JsNumber.mul confidence (JsNumber.ofNat 100)
  if percentage.den ≤ percentage.num then JsNumber.ofNat (mathRound percentage)
  else
    JsNumber.div (JsNumber.ofNat (mathRound (JsNumber.mul percentage (JsNumber.ofNat 10))))
      (JsNumber.ofNat 10)

/-- The function `getMLApprovalChance` over the `mlPredictions` state. -/
def getMLApprovalChance (mlPredictions : Option PredictionSet) (username : String) :
    Option MLChance :=
  match mlPredictions.bind (fun m => m.predictions) with
  | none => none
  | some predictions =>
    if username = "" then none
    else
      match findPrediction predictions username with
      | none => none
      | some prediction =>
        some { percentage := chancePercentage prediction.confidence
               isFallback := prediction.isFallback.getD false }

/-- The function `getGeneralMLApprovalChance` over the `generalPredictions`
state. -/
def getGeneralMLApprovalChance (generalPredictions : Option PredictionSet)
    (username : String) : Option GeneralChance :=
  match generalPredictions.bind (fun m => m.predictions) with
  | none => none
  | some predictions =>
    if username = "" then none
    else
      match findPrediction predictions username with
      | none => none
      | some prediction =>
        some { percentage := chancePercentage prediction.confidence, isGeneral := true }

/-! ## Client: the empty-members message of a team card -/

/-- The message shown when `result?.teamsConfigured` is truthy. -/
def noMembersMessage : String :=
  "No members found or insufficient permissions to view team members."

/-- The message shown otherwise. -/
def addTokenMessage : String :=
  "Team member details unavailable. Add a GitHub token with org:read scope to view team members."

/-- In `renderTeamCard`: the text of the `team-members-empty` block, if the
block is rendered. -/
def teamMembersEmptyMessage (result : Option Report) (isExpanded : Bool) (team : UserDetail) :
    Option String :=
  let noMembers := match team.members with
    | none => true
    | some members => members.length == 0
  if isExpanded && noMembers then
    some (if (result.map (fun r => r.teamsConfigured)).getD false then noMembersMessage
      else addTokenMessage)
  else none

/-- In `renderTeamCard`: whether the member list block is rendered. -/
def teamMembersListShown (isExpanded : Bool) (team : UserDetail) : Bool :=
  isExpanded && (match team.members with
    | none => false
    | some members => decide (members.length > 0))

/-! ## Client: team approval rates -/

/-- An entry of `stats.topApprovers`. -/
structure TopApprover where
  approver : Option String
  name : Option String
  username : Option String
  totalApprovals : Option Nat
deriving DecidableEq, Repr

/-- An entry of the list `approvalRates`. -/
structure ApprovalRate where
  approver : Option String
  confidence : JsNumber
  totalApprovals : Nat
  isGeneral : Bool
deriving DecidableEq, Repr

/-- Result of `getTeamApprovalRates` when it is not `null`. -/
structure TeamApprovalRates where
  predictions : List ApprovalRate
  isGeneral : Bool
deriving DecidableEq, Repr

/-- Number comparison `x < y`. -/
def JsNumber.lt (x y : JsNumber) : Bool := decide (x.num * y.den < y.num * x.den)

/-- The literal `0.01` as a Number. -/
def onePercent : JsNumber := roundToDouble 1 100

/-- The sum `totalCount` of `item.totalApprovals || 0`. -/
def totalCount (topApprovers : List TopApprover) : Nat :=
  topApprovers.foldl (fun sum item => sum + item.totalApprovals.getD 0) 0

/-- The object built by the `map` step for one item. -/
def approvalRateOf (total : Nat) (item : TopApprover) : ApprovalRate :=
  { approver := orElseStr (orElseStr item.approver item.name) item.username
    confidence := JsNumber.div (JsNumber.ofNat (item.totalApprovals.getD 0)) (JsNumber.ofNat total)
    totalApprovals := item.totalApprovals.getD 0
    isGeneral := true }

/-- The test of the `filter` step: `p.approver && p.confidence > 0.01`. -/
def keepRate (p : ApprovalRate) : Bool :=
  (match p.approver with
    | some name => name != ""
    | none => false) && JsNumber.lt onePercent p.confidence

/-- Insert a rate into a list sorted by confidence descending, after the
entries of strictly greater confidence. -/
def insertRate (r : ApprovalRate) : List ApprovalRate → List ApprovalRate
  | [] => [r]
  | x :: xs =>
    if JsNumber.lt r.confidence x.confidence then x :: insertRate r xs
    else r :: x :: xs

/-- The `sort` step with comparator `(a, b) => b.confidence - a.confidence`: a
stable sort by confidence descending. -/
def sortRates : List ApprovalRate → List ApprovalRate
  | [] => []
  | r :: rs => insertRate r (sortRates rs)

/-- The function `getTeamApprovalRates` over the value of
`statsResponse.data?.stats?.topApprovers`. -/
def getTeamApprovalRates (topApprovers : Option (List TopApprover)) :
    Option TeamApprovalRates :=
  match topApprovers with
  | none => none
  | some items =>
    if items.length > 0 then
      let total := totalCount items
      if total > 0 then
        some { predictions :=
                 (sortRates ((items.map (approvalRateOf total)).filter keepRate)).take 20
               isGeneral := true }
      else none
    else none

/-! ## Client: repository info from the PR URL

`handleSubmit` runs `prUrl.match(/github\.com\/([^/]+)\/([^/]+)\/pull\/(\d+)/)`.
The regular expression is a sequence of literal characters and of capture
groups that each hold one character class repeated greedily (`+`); `match`
returns the leftmost match, found by backtracking. -/

/-- A character class of the regular expression. -/
inductive CharClass where
  | notSlash
  | digit
deriving DecidableEq, Repr

/-- Whether a character belongs to a class: `[^/]` or `\d`. -/
def CharClass.test : CharClass → Char → Bool
  | CharClass.notSlash, c => c != '/'
  | CharClass.digit, c => c.isDigit

/-- An item of the regular expression: a literal character, or a capture group
`(cls+)`. -/
inductive RegexItem where
  | lit (c : Char)
  | group (cls : CharClass)
deriving DecidableEq, Repr

/-- Greedy `cls+` after the characters `taken` have been consumed: consume more
when possible, and fall back to stopping here when the rest of the expression
(`k`) fails on the longer attempt. -/
def plusFrom (cls : CharClass) (k : List Char → List Char → Option (List (List Char)))
    (taken : List Char) : List Char → Option (List (List Char))
  | [] => k taken []
  | c :: s =>
    if cls.test c then
      match plusFrom cls k (taken ++ [c]) s with
      | some r => some r
      | none => k taken (c :: s)
    else k taken (c :: s)

/-- Match the items at the start of the text; the result lists the captured
groups in order. -/
def matchItems : List RegexItem → List Char → Option (List (List Char))
  | [], _ => some []
  | RegexItem.lit c :: items, s =>
    match s with
    | [] => none
    | d :: s' => if c = d then matchItems items s' else none
  | RegexItem.group cls :: items, s =>
    match s with
    | [] => none
    | d :: s' =>
      if cls.test d then
        plusFrom cls (fun captured rest => (matchItems items rest).map (fun r => captured :: r))
          [d] s'
      else none

/-- The leftmost match: try every start position from left to right. -/
def searchItems (items : List RegexItem) : List Char → Option (List (List Char))
  | [] => matchItems items []
  | c :: s =>
    match matchItems items (c :: s) with
    | some r => some r
    | none => searchItems items s

/-- The literal characters of a text as regular-expression items. -/
def lits (text : String) : List RegexItem := text.data.map RegexItem.lit

/-- The regular expression `/github\.com\/([^/]+)\/([^/]+)\/pull\/(\d+)/`. -/
def prUrlRegex : List RegexItem :=
  lits "github.com/" ++ [RegexItem.group CharClass.notSlash] ++ lits "/" ++
    [RegexItem.group CharClass.notSlash] ++ lits "/pull/" ++ [RegexItem.group CharClass.digit]

/-- The value `repoInfo` computed in `handleSubmit` from `prUrl`. -/
def extractRepoInfo (prUrl : String) : Option RepoInfo :=
  match searchItems prUrlRegex prUrl.data with
  | some [owner, repo, prNumber] =>
    some { owner := String.mk owner, repo := String.mk repo, prNumber := String.mk prNumber }
  | _ => none

/-- The percentage that `calculateProgress` computes for `completed` of `total`
groups (`total > 0`). -/
def progressPercentage (completed total : Nat) : Nat :=
  mathRound
    (JsNumber.mul (JsNumber.div (JsNumber.ofNat completed) (JsNumber.ofNat total))
      (JsNumber.ofNat 100))

/-! ## Sample inputs -/

/-- A group view with the given `needsApproval` flag and nothing else. -/
def plainGroup (needsApproval : Bool) : GroupView :=
  { files := [], needsApproval := needsApproval, approvedBy := none, approverType := none,
    teamName := none, approvedTeamMembers := none, ownerDetails := [] }

/-- A report holding `satisfied` groups that need no approval followed by
`pending` groups that do. -/
def reportOf (satisfied pending : Nat) : Report :=
  { minRequiredApprovals :=
      some (List.replicate satisfied (plainGroup false) ++ List.replicate pending (plainGroup true))
    allUserDetails := [], approvals := [], requestedReviewers := [], teamsConfigured := false }

/-- A collaborator that cannot list the members of any team. -/
def noRoster : String → Team :=
  fun slug => { slug := slug, displayName := slug, members := [], membersResolvable := false }

/-- A collaborator for which every team has the members `carol` and `dave`. -/
def coreRoster : String → Team :=
  fun slug =>
    { slug := slug, displayName := slug, members := ["carol", "dave"], membersResolvable := true }

/-- An unevaluated group over `a.js` with the given owners. -/
def groupOwnedBy (owners : List OwnerRef) : ApprovalGroup :=
  { files := ["a.js"], owners := owners, satisfied := false, satisfiedBy := none,
    satisfyingTeamMembers := [] }

/-- A prediction for `approver` with confidence `num / den`. -/
def predictionFor (approver : String) (num den : Nat) : Prediction :=
  { approver := approver, confidence := ⟨num, den⟩, isFallback := none }

/-- A component state with the given token and an empty history. -/
def freshState (githubToken : String) : AppState :=
  { prUrl := "", githubToken := githubToken, recentPRs := [], currentTheme := "light",
    showHistory := false, showThemeDropdown := false, isFirstTimeUser := true }

/-- A response for the PR at `url`. -/
def prDataAt (url : String) : PrData :=
  { prInfo := { url := url, title := "Fix", number := 1, author := "alice" }
    minRequiredApprovals := [], totalGroupsNeedingApproval := 0 }

/-! # Theorems -/

/-! ## Client: what leaves the browser -/

/-- C1: the request bodies depend on the token.  For one PR URL and the two
tokens `ghp_a`, `ghp_b` the body posted to `/api/pr-approvers` differs, and so
does the body posted to `/api/ml/predict`: the token is part of both. -/
theorem token_in_request_bodies :
    handleSubmitBody "https://github.com/o/r/pull/1" "ghp_a"
        ≠ handleSubmitBody "https://github.com/o/r/pull/1" "ghp_b" ∧
      getMlPredictionsBody "ghp_a" ["a.js"] (some ⟨"o", "r", "1"⟩)
        ≠ getMlPredictionsBody "ghp_b" ["a.js"] (some ⟨"o", "r", "1"⟩) := by
  decide

/-! ## Client: progress -/

/-- With no report, or a report without `minRequiredApprovals`, the progress is
all zero. -/
theorem calculateProgress_absent (result : Option Report)
    (h : result.bind (fun r => r.minRequiredApprovals) = none) :
    calculateProgress result = { completed := 0, total := 0, percentage := 0 } := by
  simp [calculateProgress, h]

/-- For a report with groups, `total` is their number and `completed` the
number of groups whose `needsApproval` is false; with zero groups the
percentage is 0. -/
theorem calculateProgress_counts (report : Report) (groups : List GroupView)
    (h : report.minRequiredApprovals = some groups) :
    (calculateProgress (some report)).total = groups.length ∧
    (calculateProgress (some report)).completed
      = (groups.filter (fun g => !g.needsApproval)).length ∧
    (groups = [] → (calculateProgress (some report)).percentage = 0) := by
  refine ⟨by simp [calculateProgress, h], by simp [calculateProgress, h], ?_⟩
  intro hg
  simp [calculateProgress, h, hg]

/-- C2: with 40 groups of which 23 need no approval, `calculateProgress`
returns completed 23, total 40 and percentage 57, although 23/40*100 = 57.5
rounds half up to 58: the quotient 23/40 is rounded to binary64 before it is
multiplied by 100, and the product falls just below 57.5. -/
theorem calculateProgress_23_of_40 :
    calculateProgress (some (reportOf 23 17))
        = { completed := 23, total := 40, percentage := 57 } ∧
      (2 * (23 * 100) + 40) / (2 * 40) = 58 := by
  decide

/-! ## Client: approval marks -/

/-- C3 (as stated, refuted): with approvals `["Alice"]` the reviewer `alice`
is not marked approved although the two handles are equal up to letter case;
and the owner card `alice` of a satisfied group approved by `Alice` is not
marked approved. -/
theorem case_insensitive_marks_counterexample :
    ¬ ((reviewerIsApproved
          { minRequiredApprovals := none, allUserDetails := [], approvals := ["Alice"],
            requestedReviewers := [], teamsConfigured := false }
          { username := "alice", name := none, type := some "user", members := none } = true
        ↔ ∃ h ∈ ["Alice"], eqIgnoreCase h "alice" = true) ∧
       (eqIgnoreCase "alice" "Alice" = true →
        ownerIsApproved
          { files := [], needsApproval := false, approvedBy := some "Alice",
            approverType := some "user", teamName := none, approvedTeamMembers := none,
            ownerDetails := [] }
          { username := "alice", name := none, type := some "user", members := none } = true)) := by
  decide

/-- C3 (amended): handles are compared exactly.  A reviewer is marked approved
iff `approvals` contains the reviewer's username itself, requested iff
`requestedReviewers` does, and an owner card of a satisfied group is marked
approved when its username is exactly `approvedBy`. -/
theorem marks_compare_exactly (result : Report) (user : UserDetail) (group : GroupView) :
    (reviewerIsApproved result user = true ↔ user.username ∈ result.approvals) ∧
    (reviewerIsRequested result user = true ↔ user.username ∈ result.requestedReviewers) ∧
    (group.needsApproval = false → group.approvedBy = some user.username →
      ownerIsApproved group user = true) := by
  refine ⟨?_, ?_, ?_⟩
  · simp [reviewerIsApproved]
  · simp [reviewerIsRequested]
  · intro hn ha
    simp [ownerIsApproved, hn, ha]

/-- Witness for `marks_compare_exactly`: the owner card `alice` of a satisfied
group approved by `alice`. -/
theorem marks_compare_exactly_witness :
    ownerIsApproved
      { files := ["a.js"], needsApproval := false, approvedBy := some "alice",
        approverType := some "user", teamName := none, approvedTeamMembers := none,
        ownerDetails := [] }
      { username := "alice", name := none, type := some "user", members := none } = true :=
  (marks_compare_exactly
    { minRequiredApprovals := none, allUserDetails := [], approvals := ["alice"],
      requestedReviewers := [], teamsConfigured := false }
    { username := "alice", name := none, type := some "user", members := none }
    { files := ["a.js"], needsApproval := false, approvedBy := some "alice",
      approverType := some "user", teamName := none, approvedTeamMembers := none,
      ownerDetails := [] }).2.2 rfl rfl

/-- C4: an owner of type `team` whose username equals the group's `teamName`
is handed exactly the group's `approvedTeamMembers` (the empty list when
absent); an owner that is not of type `team` is handed the empty list; and a
team member is flagged approved iff its login is in the list handed over, the
username standing in for the login when the login is absent (an empty login
counts as absent). -/
theorem approved_members_of_cards (group : GroupView) (user : UserDetail)
    (approvedMembers : List String) (member : Member) :
    (user.type = some "team" → group.teamName = some user.username →
      ownerApprovedMembers group user = group.approvedTeamMembers.getD []) ∧
    (user.type ≠ some "team" → ownerApprovedMembers group user = []) ∧
    (∀ login, member.login = some login → login ≠ "" →
      (memberApproved approvedMembers member = true ↔ login ∈ approvedMembers)) ∧
    (member.login = none ∨ member.login = some "" →
      (memberApproved approvedMembers member = true ↔
        ∃ u, member.username = some u ∧ u ∈ approvedMembers)) := by
  refine ⟨?_, ?_, ?_, ?_⟩
  · intro ht hn
    simp [ownerApprovedMembers, teamNameMatches, ht, hn]
  · intro ht
    simp [ownerApprovedMembers, ht]
  · intro login hl hne
    simp [memberApproved, memberUsername, orElseStr, includesOpt, hl, hne]
  · intro hl
    have hu : memberUsername member = member.username := by
      rcases hl with hl | hl <;> simp [memberUsername, orElseStr, hl]
    rw [memberApproved, hu]
    cases hmu : member.username <;> simp [includesOpt]

/-- Witness for `approved_members_of_cards`: the team card `org/core` of a
group satisfied through that team with approving member `carol`, the user card
`bob` of the same group, and members with and without a login. -/
theorem approved_members_of_cards_witness :
    ownerApprovedMembers
        { files := ["a.js"], needsApproval := false, approvedBy := some "carol",
          approverType := some "team", teamName := some "org/core",
          approvedTeamMembers := some ["carol"], ownerDetails := [] }
        { username := "org/core", name := some "core", type := some "team", members := none }
      = ["carol"] ∧
    ownerApprovedMembers
        { files := ["a.js"], needsApproval := false, approvedBy := some "carol",
          approverType := some "team", teamName := some "org/core",
          approvedTeamMembers := some ["carol"], ownerDetails := [] }
        { username := "bob", name := some "Bob", type := some "user", members := none }
      = [] ∧
    (memberApproved ["carol"] { login := some "carol", username := none, name := none } = true
      ↔ "carol" ∈ ["carol"]) ∧
    (memberApproved ["carol"] { login := none, username := some "carol", name := none } = true
      ↔ ∃ u, some "carol" = some u ∧ u ∈ ["carol"]) :=
  ⟨(approved_members_of_cards
      { files := ["a.js"], needsApproval := false, approvedBy := some "carol",
        approverType := some "team", teamName := some "org/core",
        approvedTeamMembers := some ["carol"], ownerDetails := [] }
      { username := "org/core", name := some "core", type := some "team", members := none }
      ["carol"] { login := some "carol", username := none, name := none }).1 rfl rfl,
   (approved_members_of_cards
      { files := ["a.js"], needsApproval := false, approvedBy := some "carol",
        approverType := some "team", teamName := some "org/core",
        approvedTeamMembers := some ["carol"], ownerDetails := [] }
      { username := "bob", name := some "Bob", type := some "user", members := none }
      ["carol"] { login := some "carol", username := none, name := none }).2.1 (by decide),
   (approved_members_of_cards
      { files := ["a.js"], needsApproval := false, approvedBy := some "carol",
        approverType := some "team", teamName := some "org/core",
        approvedTeamMembers := some ["carol"], ownerDetails := [] }
      { username := "org/core", name := some "core", type := some "team", members := none }
      ["carol"] { login := some "carol", username := none, name := none }).2.2.1
        "carol" rfl (by decide),
   (approved_members_of_cards
      { files := ["a.js"], needsApproval := false, approvedBy := some "carol",
        approverType := some "team", teamName := some "org/core",
        approvedTeamMembers := some ["carol"], ownerDetails := [] }
      { username := "org/core", name := some "core", type := some "team", members := none }
      ["carol"] { login := none, username := some "carol", name := none }).2.2.2 (Or.inl rfl)⟩

/-! ## Engine: ownership resolver -/

/-- The scan of `lastMatch`, started from any remembered rule, ends on the last
matching rule of the list, or on the remembered rule when no rule matches. -/
theorem lastMatch_foldl (path : String) (rules : List OwnershipRule)
    (remembered : Option OwnershipRule) :
    rules.foldl (fun remembered rule =>
        if patternMatches rule.pattern path then some rule else remembered) remembered
      = ((rules.filter (fun rule => patternMatches rule.pattern path)).getLast?).or remembered := by
  induction rules using List.reverseRecOn with
  | nil => simp
  | append_singleton rules rule ih =>
    rw [List.foldl_append, ih, List.filter_append]
    by_cases hm : patternMatches rule.pattern path = true
    · simp [hm]
    · simp [hm]

/-- The remembered rule of `lastMatch` is the last rule, in declared order,
whose pattern matches the path. -/
theorem lastMatch_eq (rules : List OwnershipRule) (path : String) :
    lastMatch rules path
      = (rules.filter (fun rule => patternMatches rule.pattern path)).getLast? := by
  unfold lastMatch
  rw [lastMatch_foldl]
  simp

/-- C7: last-match-wins.  The owner set of a changed file is the owner list of
the last rule, in declared order, whose pattern matches the file, and is empty
when no rule matches; with rules `[("*.js", [A]), ("src/**", [B])]` the file
`src/a.js` resolves to `B`. -/
theorem last_match_wins (rules : List OwnershipRule) (path : String) :
    (resolveFile rules path).owners
        = (((rules.filter (fun rule => patternMatches rule.pattern path)).getLast?).map
            (fun rule => rule.owners)).getD [] ∧
      (resolveFile [⟨"*.js", [OwnerRef.User "A"]⟩, ⟨"src/**", [OwnerRef.User "B"]⟩]
          "src/a.js").owners = [OwnerRef.User "B"] := by
  refine ⟨?_, by decide⟩
  simp only [resolveFile, lastMatch_eq]
  cases (rules.filter (fun rule => patternMatches rule.pattern path)).getLast? <;> rfl

/-! ## Engine: group builder -/

/-- Adding a file appends its path to the concatenated file lists, up to
order. -/
theorem addToGroups_files (fo : FileOwnership) (gs : List ApprovalGroup) :
    ((addToGroups fo gs).map (fun g => g.files)).flatten.Perm
      ((gs.map (fun g => g.files)).flatten ++ [fo.path]) := by
  induction gs with
  | nil => simp [addToGroups, newGroup]
  | cons g gs ih =>
    by_cases h : signature g.owners = signature fo.owners
    · simp only [addToGroups, h, if_true, List.map_cons, List.flatten_cons, List.append_assoc]
      exact List.Perm.append_left _ List.perm_append_comm
    · simp only [addToGroups, h, if_false, List.map_cons, List.flatten_cons, List.append_assoc]
      exact List.Perm.append_left _ ih

/-- Adding a file leaves the list of group signatures unchanged when the file's
signature is already there, and appends the signature otherwise. -/
theorem addToGroups_signatures (fo : FileOwnership) (gs : List ApprovalGroup) :
    (addToGroups fo gs).map (fun g => signature g.owners)
      = if signature fo.owners ∈ gs.map (fun g => signature g.owners)
        then gs.map (fun g => signature g.owners)
        else gs.map (fun g => signature g.owners) ++ [signature fo.owners] := by
  induction gs with
  | nil => simp [addToGroups, newGroup]
  | cons g gs ih =>
    by_cases h : signature g.owners = signature fo.owners
    · simp [addToGroups, h]
    · have h' : ¬ signature fo.owners = signature g.owners := fun e => h e.symm
      simp only [addToGroups, h, if_false, List.map_cons, ih, List.mem_cons, h', false_or]
      split <;> simp

/-- Adding a file keeps the group signatures pairwise distinct. -/
theorem addToGroups_nodup (fo : FileOwnership) (gs : List ApprovalGroup)
    (h : (gs.map (fun g => signature g.owners)).Nodup) :
    ((addToGroups fo gs).map (fun g => signature g.owners)).Nodup := by
  rw [addToGroups_signatures]
  split
  · exact h
  · rename_i hn
    exact List.Nodup.append h (List.nodup_singleton _) (by simpa using hn)

/-- After adding a file, a path lies in the group of signature `s` iff it did
before or it is the added file and `s` is that file's signature. -/
theorem addToGroups_mem (fo : FileOwnership) (gs : List ApprovalGroup) (s p : String) :
    (∃ g ∈ addToGroups fo gs, signature g.owners = s ∧ p ∈ g.files) ↔
      (∃ g ∈ gs, signature g.owners = s ∧ p ∈ g.files) ∨
        (signature fo.owners = s ∧ fo.path = p) := by
  induction gs with
  | nil =>
    simp only [addToGroups, newGroup, List.mem_singleton, exists_eq_left, List.not_mem_nil,
      false_and, exists_false, false_or]
    constructor
    · rintro ⟨h1, h2⟩
      exact ⟨h1, h2.symm⟩
    · rintro ⟨h1, h2⟩
      exact ⟨h1, h2.symm⟩
  | cons g gs ih =>
    by_cases h : signature g.owners = signature fo.owners
    · simp only [addToGroups, h, if_true, List.exists_mem_cons_iff, List.mem_append,
        List.mem_singleton]
      constructor
      · rintro (⟨h1, h2 | h2⟩ | h3)
        · exact Or.inl (Or.inl ⟨h1, h2⟩)
        · exact Or.inr ⟨h1, h2.symm⟩
        · exact Or.inl (Or.inr h3)
      · rintro ((⟨h1, h2⟩ | h3) | ⟨h1, h2⟩)
        · exact Or.inl ⟨h1, Or.inl h2⟩
        · exact Or.inr h3
        · exact Or.inl ⟨h1, Or.inr h2.symm⟩
    · simp only [addToGroups, h, if_false, List.exists_mem_cons_iff, ih]
      exact or_assoc.symm

/-- The groups built from `ownerships` and one more file. -/
theorem buildGroups_append (ownerships : List FileOwnership) (fo : FileOwnership) :
    buildGroups (ownerships ++ [fo]) = addToGroups fo (buildGroups ownerships) := by
  simp [buildGroups, List.foldl_append]

/-- The built groups have pairwise distinct signatures. -/
theorem buildGroups_nodup (ownerships : List FileOwnership) :
    ((buildGroups ownerships).map (fun g => signature g.owners)).Nodup := by
  induction ownerships using List.reverseRecOn with
  | nil => simp [buildGroups]
  | append_singleton fos fo ih =>
    rw [buildGroups_append]
    exact addToGroups_nodup fo _ ih

/-- The file lists of the built groups hold every input path exactly once. -/
theorem buildGroups_files (ownerships : List FileOwnership) :
    ((buildGroups ownerships).map (fun g => g.files)).flatten.Perm
      (ownerships.map (fun fo => fo.path)) := by
  induction ownerships using List.reverseRecOn with
  | nil => simp [buildGroups]
  | append_singleton fos fo ih =>
    rw [buildGroups_append, List.map_append]
    exact (addToGroups_files fo _).trans (List.Perm.append_right _ ih)

/-- A path lies in the built group of signature `s` iff some input ownership
has that path and that signature. -/
theorem buildGroups_mem (ownerships : List FileOwnership) (s p : String) :
    (∃ g ∈ buildGroups ownerships, signature g.owners = s ∧ p ∈ g.files) ↔
      ∃ fo ∈ ownerships, signature fo.owners = s ∧ fo.path = p := by
  induction ownerships using List.reverseRecOn with
  | nil => simp [buildGroups]
  | append_singleton fos fo ih =>
    rw [buildGroups_append, addToGroups_mem, ih]
    simp only [List.mem_append, List.mem_singleton]
    constructor
    · rintro (⟨fo', h1, h2⟩ | h3)
      · exact ⟨fo', Or.inl h1, h2⟩
      · exact ⟨fo, Or.inr rfl, h3⟩
    · rintro ⟨fo', h1 | h1, h2⟩
      · exact Or.inl ⟨fo', h1, h2⟩
      · subst h1
        exact Or.inr h2

/-- The evaluator keeps the files of a group. -/
theorem evaluateGroup_files (rosters : List Team) (reviewState : ReviewState)
    (g : ApprovalGroup) : (evaluateGroup rosters reviewState g).files = g.files := by
  unfold evaluateGroup
  split <;> rfl

/-- The evaluator keeps the owners of a group. -/
theorem evaluateGroup_owners (rosters : List Team) (reviewState : ReviewState)
    (g : ApprovalGroup) : (evaluateGroup rosters reviewState g).owners = g.owners := by
  unfold evaluateGroup
  split <;> rfl

/-- With at least one rule, the emitted groups are the built groups, each
evaluated. -/
theorem resolveApprovals_groups (changedFiles : List String) (rulesText : String)
    (reviewState : ReviewState) (teamLookup : String → Team)
    (h : parseRules rulesText ≠ []) :
    (resolveApprovals changedFiles rulesText reviewState teamLookup).minRequiredApprovals
      = (buildGroups (changedFiles.map (resolveFile (parseRules rulesText)))).map
          (evaluateGroup
            (resolveTeams teamLookup
              (buildGroups (changedFiles.map (resolveFile (parseRules rulesText)))))
            reviewState) := by
  have hr : (parseRules rulesText).isEmpty = false := by
    cases hp : parseRules rulesText with
    | nil => exact absurd hp h
    | cons _ _ => rfl
  cases changedFiles with
  | nil => simp [resolveApprovals, buildGroups]
  | cons f fs => simp [resolveApprovals, hr]

/-- C5 (as stated, refuted): with the changed file `a.js` and an empty rules
text the report has zero groups (EmptyInput), so the file lists of the groups
do not contain `a.js`. -/
theorem partition_counterexample :
    ¬ (((resolveApprovals ["a.js"] "" ⟨[], []⟩ noRoster).minRequiredApprovals.map
          (fun g => g.files)).flatten.Perm ["a.js"]) := by
  have h : ((resolveApprovals ["a.js"] "" ⟨[], []⟩ noRoster).minRequiredApprovals.map
      (fun g => g.files)).flatten = [] := by decide
  rw [h]
  simp

/-- C5 (amended): partition property.  For every list of changed files and
every rules text that yields at least one rule, the file lists of the emitted
approval groups together contain every changed file exactly once. -/
theorem groups_partition_files (changedFiles : List String) (rulesText : String)
    (reviewState : ReviewState) (teamLookup : String → Team)
    (h : parseRules rulesText ≠ []) :
    ((resolveApprovals changedFiles rulesText reviewState teamLookup).minRequiredApprovals.map
        (fun g => g.files)).flatten.Perm changedFiles := by
  rw [resolveApprovals_groups _ _ _ _ h, List.map_map]
  have hf : ((fun g => g.files) ∘ evaluateGroup
      (resolveTeams teamLookup
        (buildGroups (changedFiles.map (resolveFile (parseRules rulesText))))) reviewState)
      = fun g => g.files := by
    funext g
    exact evaluateGroup_files _ _ g
  rw [hf]
  have hp := buildGroups_files (changedFiles.map (resolveFile (parseRules rulesText)))
  have hid : (changedFiles.map (resolveFile (parseRules rulesText))).map (fun fo => fo.path)
      = changedFiles := by
    rw [List.map_map]
    have : ((fun fo => fo.path) ∘ resolveFile (parseRules rulesText)) = id := by
      funext x
      rfl
    rw [this, List.map_id]
  rw [hid] at hp
  exact hp

/-- Witness for `groups_partition_files`: the end-to-end example of the
specification. -/
theorem groups_partition_files_witness :
    ((resolveApprovals ["README.md", "docs/api.md"] "*.md @alice\ndocs/ @bob @team-x"
        ⟨["bob"], []⟩ noRoster).minRequiredApprovals.map
        (fun g => g.files)).flatten.Perm ["README.md", "docs/api.md"] :=
  groups_partition_files ["README.md", "docs/api.md"] "*.md @alice\ndocs/ @bob @team-x"
    ⟨["bob"], []⟩ noRoster (by decide)

/-- C6 (as stated, refuted): with the changed files `a.js`, `b.js` and an
empty rules text both files have the same signature, yet no emitted group
holds them (the report has zero groups). -/
theorem merge_counterexample :
    ¬ (((resolveApprovals ["a.js", "b.js"] "" ⟨[], []⟩ noRoster).minRequiredApprovals.map
          (fun g => signature g.owners)).Nodup ∧
       ∀ f1 ∈ ["a.js", "b.js"], ∀ f2 ∈ ["a.js", "b.js"],
        ((∃ g ∈ (resolveApprovals ["a.js", "b.js"] "" ⟨[], []⟩ noRoster).minRequiredApprovals,
            f1 ∈ g.files ∧ f2 ∈ g.files) ↔
          signature (resolveFile (parseRules "") f1).owners
            = signature (resolveFile (parseRules "") f2).owners)) := by
  have h : (resolveApprovals ["a.js", "b.js"] "" ⟨[], []⟩ noRoster).minRequiredApprovals = [] := by
    decide
  rw [h]
  intro hc
  have h1 := hc.2 "a.js" (by simp) "b.js" (by simp)
  have h2 : signature (resolveFile (parseRules "") "a.js").owners
      = signature (resolveFile (parseRules "") "b.js").owners := by decide
  obtain ⟨g, hg, _⟩ := h1.mpr h2
  simp at hg

/-- With no rule the report has zero groups (EmptyInput). -/
theorem resolveApprovals_no_rules (changedFiles : List String) (rulesText : String)
    (reviewState : ReviewState) (teamLookup : String → Team)
    (h : parseRules rulesText = []) :
    (resolveApprovals changedFiles rulesText reviewState teamLookup).minRequiredApprovals
      = [] := by
  simp [resolveApprovals, h]

/-- C6 (amended): merge completeness.  For every input no two emitted groups
have the same canonical owner-set signature; and when the rules text yields at
least one rule, two changed files are in the same group iff their canonical
owner-set signatures are equal. -/
theorem merge_completeness (changedFiles : List String) (rulesText : String)
    (reviewState : ReviewState) (teamLookup : String → Team) :
    ((resolveApprovals changedFiles rulesText reviewState teamLookup).minRequiredApprovals.map
        (fun g => signature g.owners)).Nodup ∧
    (parseRules rulesText ≠ [] →
      ∀ f1 ∈ changedFiles, ∀ f2 ∈ changedFiles,
        ((∃ g ∈ (resolveApprovals changedFiles rulesText reviewState
              teamLookup).minRequiredApprovals, f1 ∈ g.files ∧ f2 ∈ g.files) ↔
          signature (resolveFile (parseRules rulesText) f1).owners
            = signature (resolveFile (parseRules rulesText) f2).owners)) := by
  by_cases h : parseRules rulesText = []
  · rw [resolveApprovals_no_rules _ _ _ _ h]
    exact ⟨List.nodup_nil, fun hne => absurd h hne⟩
  rw [resolveApprovals_groups _ _ _ _ h]
  generalize hfos : changedFiles.map (resolveFile (parseRules rulesText)) = fos
  generalize resolveTeams teamLookup (buildGroups fos) = rosters
  have hsig : ((buildGroups fos).map (evaluateGroup rosters reviewState)).map
      (fun g => signature g.owners) = (buildGroups fos).map (fun g => signature g.owners) := by
    rw [List.map_map]
    apply List.map_congr_left
    intro g _
    simp [evaluateGroup_owners]
  have hnd := buildGroups_nodup fos
  have key : ∀ f ∈ changedFiles, ∀ g ∈ buildGroups fos, f ∈ g.files →
      signature g.owners = signature (resolveFile (parseRules rulesText) f).owners := by
    intro f _ g hg hfg
    obtain ⟨fo, hfo, hs, hp⟩ := (buildGroups_mem fos (signature g.owners) f).mp ⟨g, hg, rfl, hfg⟩
    rw [← hfos, List.mem_map] at hfo
    obtain ⟨x, _, hx⟩ := hfo
    have hxf : x = f := by
      rw [← hp, ← hx]
      rfl
    rw [← hs, ← hx, hxf]
  have has : ∀ f ∈ changedFiles, ∃ g ∈ buildGroups fos,
      signature g.owners = signature (resolveFile (parseRules rulesText) f).owners ∧
        f ∈ g.files := by
    intro f hf
    apply (buildGroups_mem fos _ f).mpr
    refine ⟨resolveFile (parseRules rulesText) f, ?_, rfl, rfl⟩
    rw [← hfos]
    exact List.mem_map_of_mem _ hf
  refine ⟨by rw [hsig]; exact hnd, ?_⟩
  intro _ f1 hf1 f2 hf2
  constructor
  · rintro ⟨g', hg', h1, h2⟩
    obtain ⟨g, hg, rfl⟩ := List.mem_map.mp hg'
    rw [evaluateGroup_files] at h1 h2
    rw [← key f1 hf1 g hg h1, ← key f2 hf2 g hg h2]
  · intro heq
    obtain ⟨g1, hg1, hs1, hm1⟩ := has f1 hf1
    obtain ⟨g2, hg2, hs2, hm2⟩ := has f2 hf2
    have hgg : g1 = g2 :=
      List.inj_on_of_nodup_map hnd hg1 hg2 (by rw [hs1, hs2, heq])
    subst hgg
    refine ⟨evaluateGroup rosters reviewState g1, List.mem_map_of_mem _ hg1, ?_, ?_⟩
    · rw [evaluateGroup_files]
      exact hm1
    · rw [evaluateGroup_files]
      exact hm2

/-- Witness for `merge_completeness`: the end-to-end example of the
specification. -/
theorem merge_completeness_witness :
    ∀ f1 ∈ ["README.md", "docs/api.md"], ∀ f2 ∈ ["README.md", "docs/api.md"],
      ((∃ g ∈ (resolveApprovals ["README.md", "docs/api.md"]
            "*.md @alice\ndocs/ @bob @team-x" ⟨["bob"], []⟩ noRoster).minRequiredApprovals,
          f1 ∈ g.files ∧ f2 ∈ g.files) ↔
        signature (resolveFile (parseRules "*.md @alice\ndocs/ @bob @team-x") f1).owners
          = signature (resolveFile (parseRules "*.md @alice\ndocs/ @bob @team-x") f2).owners) :=
  (merge_completeness ["README.md", "docs/api.md"] "*.md @alice\ndocs/ @bob @team-x"
    ⟨["bob"], []⟩ noRoster).2 (by decide)

/-! ## Engine: approval evaluator -/

/-- The evaluator reports a group satisfied exactly when the scan of its owners
finds a satisfying owner. -/
theorem evaluateGroup_satisfied (rosters : List Team) (reviewState : ReviewState)
    (g : ApprovalGroup) :
    (evaluateGroup rosters reviewState g).satisfied
      = (g.owners.find? (ownerSatisfied rosters reviewState)).isSome := by
  unfold evaluateGroup
  split <;> simp [*]

/-- The evaluator records the first satisfying owner of the scan. -/
theorem evaluateGroup_satisfiedBy (rosters : List Team) (reviewState : ReviewState)
    (g : ApprovalGroup) :
    (evaluateGroup rosters reviewState g).satisfiedBy
      = g.owners.find? (ownerSatisfied rosters reviewState) := by
  unfold evaluateGroup
  split <;> simp [*]

/-- A team has an approving member iff one of its resolved members is present
in the approvals. -/
theorem approvingMembers_nonempty (rosters : List Team) (reviewState : ReviewState)
    (slug : String) :
    (approvingMembers rosters reviewState slug).isEmpty = false ↔
      ∃ m ∈ resolvedMembers rosters slug, handlePresent reviewState.approvals m = true := by
  unfold approvingMembers
  constructor
  · intro h
    cases hl : (resolvedMembers rosters slug).filter (handlePresent reviewState.approvals) with
    | nil => simp [hl] at h
    | cons m ms =>
      have hm : m ∈ (resolvedMembers rosters slug).filter
          (handlePresent reviewState.approvals) := by simp [hl]
      rw [List.mem_filter] at hm
      exact ⟨m, hm.1, hm.2⟩
  · rintro ⟨m, hm, hp⟩
    have hm' : m ∈ (resolvedMembers rosters slug).filter
        (handlePresent reviewState.approvals) := List.mem_filter.mpr ⟨hm, hp⟩
    cases hl : (resolvedMembers rosters slug).filter (handlePresent reviewState.approvals) with
    | nil => simp [hl] at hm'
    | cons _ _ => rfl

/-- A group is reported satisfied iff one of its owners satisfies it. -/
theorem satisfied_by_some_owner (rosters : List Team) (reviewState : ReviewState)
    (g : ApprovalGroup) :
    (evaluateGroup rosters reviewState g).satisfied = true ↔
      ∃ o ∈ g.owners, ownerSatisfied rosters reviewState o = true := by
  rw [evaluateGroup_satisfied, List.find?_isSome]

/-- C8: the evaluator marks a group satisfied iff some User owner's handle is
in the approvals, or some Team owner has a resolved member whose handle is in
the approvals, or some Team owner's own handle literally appears in the
approvals. -/
theorem satisfied_iff (rosters : List Team) (reviewState : ReviewState) (g : ApprovalGroup) :
    (evaluateGroup rosters reviewState g).satisfied = true ↔
      (∃ handle, OwnerRef.User handle ∈ g.owners ∧
          handlePresent reviewState.approvals handle = true) ∨
      (∃ slug, OwnerRef.Team slug ∈ g.owners ∧
          ∃ m ∈ resolvedMembers rosters slug, handlePresent reviewState.approvals m = true) ∨
      (∃ slug, OwnerRef.Team slug ∈ g.owners ∧ slug ∈ reviewState.approvals) := by
  rw [satisfied_by_some_owner]
  constructor
  · rintro ⟨o, ho, hs⟩
    cases o with
    | User handle => exact Or.inl ⟨handle, ho, hs⟩
    | Team slug =>
      simp only [ownerSatisfied, Bool.or_eq_true, Bool.not_eq_true'] at hs
      rcases hs with hs | hs
      · exact Or.inr (Or.inl ⟨slug, ho, (approvingMembers_nonempty _ _ _).mp hs⟩)
      · exact Or.inr (Or.inr ⟨slug, ho, by simpa using hs⟩)
  · rintro (⟨handle, ho, hs⟩ | ⟨slug, ho, hm⟩ | ⟨slug, ho, hs⟩)
    · exact ⟨OwnerRef.User handle, ho, hs⟩
    · refine ⟨OwnerRef.Team slug, ho, ?_⟩
      simp only [ownerSatisfied, Bool.or_eq_true, Bool.not_eq_true']
      exact Or.inl ((approvingMembers_nonempty _ _ _).mpr hm)
    · refine ⟨OwnerRef.Team slug, ho, ?_⟩
      simp only [ownerSatisfied, Bool.or_eq_true, Bool.not_eq_true']
      exact Or.inr (by simpa using hs)

/-- C9 (as stated, refuted): in a group owned by `alice` and `bob`, both of
whom approved, `bob` is a User owner whose handle is in the approvals, the
group is satisfied, yet `satisfiedBy` is `alice`, the first satisfying owner. -/
theorem satisfiedBy_counterexample :
    ¬ (OwnerRef.User "bob" ∈ (groupOwnedBy [OwnerRef.User "alice", OwnerRef.User "bob"]).owners →
        handlePresent (ReviewState.mk ["bob", "alice"] []).approvals "bob" = true →
        (evaluateGroup [] ⟨["bob", "alice"], []⟩
            (groupOwnedBy [OwnerRef.User "alice", OwnerRef.User "bob"])).needsApproval = false ∧
          (evaluateGroup [] ⟨["bob", "alice"], []⟩
            (groupOwnedBy [OwnerRef.User "alice", OwnerRef.User "bob"])).satisfiedBy
              = some (OwnerRef.User "bob")) := by
  decide

/-- C9 (amended): if the approvals contain a handle equal to one of the group's
User owners, the group is reported satisfied (`needsApproval = false`), and
`satisfiedBy` is that owner whenever no owner declared before it satisfies the
group. -/
theorem user_approval_satisfies (rosters : List Team) (reviewState : ReviewState)
    (g : ApprovalGroup) (handle : String)
    (hown : OwnerRef.User handle ∈ g.owners)
    (happ : handlePresent reviewState.approvals handle = true) :
    (evaluateGroup rosters reviewState g).satisfied = true ∧
    (evaluateGroup rosters reviewState g).needsApproval = false ∧
    ∀ pre post, g.owners = pre ++ OwnerRef.User handle :: post →
      (∀ o ∈ pre, ownerSatisfied rosters reviewState o = false) →
      (evaluateGroup rosters reviewState g).satisfiedBy = some (OwnerRef.User handle) := by
  have hs : (evaluateGroup rosters reviewState g).satisfied = true :=
    (satisfied_by_some_owner rosters reviewState g).mpr ⟨OwnerRef.User handle, hown, happ⟩
  refine ⟨hs, by simp [ApprovalGroup.needsApproval, hs], ?_⟩
  intro pre post hsplit hpre
  rw [evaluateGroup_satisfiedBy, hsplit, List.find?_append]
  have hnone : pre.find? (ownerSatisfied rosters reviewState) = none := by
    rw [List.find?_eq_none]
    intro o ho
    simp [hpre o ho]
  have hhead : ownerSatisfied rosters reviewState (OwnerRef.User handle) = true := happ
  simp [hnone, List.find?_cons, hhead]

/-- Witness for `user_approval_satisfies`: a group owned by `alice` and `bob`
in which only `bob` approved. -/
theorem user_approval_satisfies_witness :
    (evaluateGroup [] ⟨["bob"], []⟩
        (groupOwnedBy [OwnerRef.User "alice", OwnerRef.User "bob"])).satisfied = true ∧
    (evaluateGroup [] ⟨["bob"], []⟩
        (groupOwnedBy [OwnerRef.User "alice", OwnerRef.User "bob"])).satisfiedBy
      = some (OwnerRef.User "bob") :=
  have h := user_approval_satisfies [] ⟨["bob"], []⟩
    (groupOwnedBy [OwnerRef.User "alice", OwnerRef.User "bob"]) "bob" (by decide) (by decide)
  ⟨h.1, h.2.2 [OwnerRef.User "alice"] [] rfl (by decide)⟩

/-- C10: for a group whose only owner is a team, every resolved member of that
team whose handle is in the approvals makes the evaluator report the group
satisfied, and `satisfyingTeamMembers` (the view's `approvedTeamMembers`)
contains that member's handle; all approving members are reported. -/
theorem team_member_approval (rosters : List Team) (reviewState : ReviewState)
    (g : ApprovalGroup) (slug member : String)
    (hown : g.owners = [OwnerRef.Team slug])
    (hmem : member ∈ resolvedMembers rosters slug)
    (happ : handlePresent reviewState.approvals member = true) :
    (evaluateGroup rosters reviewState g).satisfied = true ∧
    member ∈ (evaluateGroup rosters reviewState g).satisfyingTeamMembers := by
  have hne : (approvingMembers rosters reviewState slug).isEmpty = false :=
    (approvingMembers_nonempty rosters reviewState slug).mpr ⟨member, hmem, happ⟩
  have hsat : ownerSatisfied rosters reviewState (OwnerRef.Team slug) = true := by
    simp [ownerSatisfied, hne]
  have hin : member ∈ approvingMembers rosters reviewState slug :=
    List.mem_filter.mpr ⟨hmem, happ⟩
  unfold evaluateGroup
  rw [hown]
  simp [List.find?_cons, hsat, hin]

/-- Witness for `team_member_approval`: the team `org/core` with members
`carol` and `dave`, both of whom approved. -/
theorem team_member_approval_witness :
    (evaluateGroup [coreRoster "org/core"] ⟨["dave", "carol"], []⟩
        (groupOwnedBy [OwnerRef.Team "org/core"])).satisfied = true ∧
    "dave" ∈ (evaluateGroup [coreRoster "org/core"] ⟨["dave", "carol"], []⟩
        (groupOwnedBy [OwnerRef.Team "org/core"])).satisfyingTeamMembers :=
  team_member_approval [coreRoster "org/core"] ⟨["dave", "carol"], []⟩
    (groupOwnedBy [OwnerRef.Team "org/core"]) "org/core" "dave" rfl (by decide) (by decide)

/-- C11: tie-break.  When several owners of a group are each approved, the
evaluator records as `satisfiedBy` the first satisfying owner in the group's
owner-declaration order: the satisfying owner before which no owner
satisfies the group. -/
theorem first_satisfying_owner_recorded (rosters : List Team) (reviewState : ReviewState)
    (g : ApprovalGroup) (before after : List OwnerRef) (owner : OwnerRef)
    (hsplit : g.owners = before ++ owner :: after)
    (hsat : ownerSatisfied rosters reviewState owner = true)
    (hfirst : ∀ o ∈ before, ownerSatisfied rosters reviewState o = false) :
    (evaluateGroup rosters reviewState g).satisfiedBy = some owner := by
  rw [evaluateGroup_satisfiedBy, hsplit, List.find?_append]
  have hnone : before.find? (ownerSatisfied rosters reviewState) = none := by
    rw [List.find?_eq_none]
    intro o ho
    simp [hfirst o ho]
  simp [hnone, List.find?_cons, hsat]

/-- Witness for `first_satisfying_owner_recorded`: owners `alice`, `bob`,
`carol` of whom `bob` and `carol` approved; `bob` is recorded. -/
theorem first_satisfying_owner_recorded_witness :
    (evaluateGroup [] ⟨["carol", "bob"], []⟩
        (groupOwnedBy [OwnerRef.User "alice", OwnerRef.User "bob", OwnerRef.User "carol"])).satisfiedBy
      = some (OwnerRef.User "bob") :=
  first_satisfying_owner_recorded [] ⟨["carol", "bob"], []⟩
    (groupOwnedBy [OwnerRef.User "alice", OwnerRef.User "bob", OwnerRef.User "carol"])
    [OwnerRef.User "alice"] [OwnerRef.User "carol"] (OwnerRef.User "bob") rfl (by decide)
    (by decide)

/-- An evaluated group without owners is unsatisfied, needs approval and is
flagged unowned. -/
theorem empty_group_evaluated (rosters : List Team) (reviewState : ReviewState)
    (g : ApprovalGroup) (hempty : g.owners = []) :
    (evaluateGroup rosters reviewState g).satisfied = false ∧
    (evaluateGroup rosters reviewState g).needsApproval = true ∧
    (evaluateGroup rosters reviewState g).unowned = true := by
  have hs : (evaluateGroup rosters reviewState g).satisfied = false := by
    rw [evaluateGroup_satisfied, hempty]
    rfl
  exact ⟨hs, by simp [ApprovalGroup.needsApproval, hs],
    by simp [ApprovalGroup.unowned, evaluateGroup_owners, hempty]⟩

/-- C13: for every review state and rosters, a group with an empty owner set
is reported with `satisfied = false`, hence `needsApproval = true`, and is
flagged unowned. -/
theorem empty_owner_group_unsatisfied (rosters : List Team) (reviewState : ReviewState)
    (g : ApprovalGroup) (hempty : g.owners = []) :
    (evaluateGroup rosters reviewState g).satisfied = false ∧
    (evaluateGroup rosters reviewState g).needsApproval = true ∧
    (evaluateGroup rosters reviewState g).unowned = true ∧
    (evaluateGroup rosters reviewState g).satisfiedBy = none := by
  have hs : (evaluateGroup rosters reviewState g).satisfied = false := by
    rw [evaluateGroup_satisfied, hempty]
    rfl
  refine ⟨hs, by simp [ApprovalGroup.needsApproval, hs], ?_, ?_⟩
  · simp [ApprovalGroup.unowned, evaluateGroup_owners, hempty]
  · rw [evaluateGroup_satisfiedBy, hempty]
    rfl

/-- Witness for `empty_owner_group_unsatisfied`: an ownerless group evaluated
against approvals by `bob`. -/
theorem empty_owner_group_unsatisfied_witness :
    (evaluateGroup [coreRoster "org/core"] ⟨["bob"], []⟩ (groupOwnedBy [])).satisfied = false ∧
    (evaluateGroup [coreRoster "org/core"] ⟨["bob"], []⟩ (groupOwnedBy [])).needsApproval = true ∧
    (evaluateGroup [coreRoster "org/core"] ⟨["bob"], []⟩ (groupOwnedBy [])).unowned = true ∧
    (evaluateGroup [coreRoster "org/core"] ⟨["bob"], []⟩ (groupOwnedBy [])).satisfiedBy = none :=
  empty_owner_group_unsatisfied [coreRoster "org/core"] ⟨["bob"], []⟩ (groupOwnedBy []) rfl

/-! ## Client: recent PR history -/

/-- C16: after `addToRecentPRs` the history has at most 10 entries, and its
length is exactly min(10, 1 + the number of prior entries whose url differs
from the url of the new PR), whatever the length of the prior history. -/
theorem addToRecentPRs_length (analyzedAt : String) (prData : PrData) (prev : List RecentPR) :
    (addToRecentPRs analyzedAt prData prev).length ≤ 10 ∧
    (addToRecentPRs analyzedAt prData prev).length
      = min 10 (1 + prev.countP (fun pr => pr.url != prData.prInfo.url)) := by
  have hlen : (addToRecentPRs analyzedAt prData prev).length
      = min 10 (1 + prev.countP (fun pr => pr.url != prData.prInfo.url)) := by
    simp only [addToRecentPRs, newRecentPR, List.length_take, List.length_cons,
      List.countP_eq_length_filter]
    omega
  exact ⟨by rw [hlen]; exact Nat.min_le_left _ _, hlen⟩

/-- C17: after `addToRecentPRs` the entry of the new PR is the first entry and
its url occurs exactly once in the history, also when the prior history held
that url already, once or several times. -/
theorem addToRecentPRs_head_unique (analyzedAt : String) (prData : PrData)
    (prev : List RecentPR) :
    (addToRecentPRs analyzedAt prData prev).head? = some (newRecentPR analyzedAt prData) ∧
    (newRecentPR analyzedAt prData).url = prData.prInfo.url ∧
    (addToRecentPRs analyzedAt prData prev).countP (fun pr => pr.url == prData.prInfo.url)
      = 1 := by
  refine ⟨by simp [addToRecentPRs], rfl, ?_⟩
  have hzero : ((prev.filter (fun pr => pr.url != prData.prInfo.url)).take 9).countP
      (fun pr => pr.url == prData.prInfo.url) = 0 := by
    rw [List.countP_eq_zero]
    intro pr hpr
    have hmem := List.mem_of_mem_take hpr
    rw [List.mem_filter] at hmem
    simpa using hmem.2
  have hnew : (newRecentPR analyzedAt prData).url = prData.prInfo.url := rfl
  simp only [addToRecentPRs, hnew]
  rw [show (10 : Nat) = 9 + 1 from rfl, List.take_succ_cons, List.countP_cons, hzero]
  simp [hnew]

/-! ## Client: team cards -/

/-- C19: an expanded team card whose member list is absent or empty shows
exactly one of the two messages: the text "No members found or insufficient
permissions to view team members." iff the report's `teamsConfigured` is true,
and otherwise (flag false, or no report) the text "Team member details
unavailable. Add a GitHub token with org:read scope to view team members."; a
team card with at least one member shows neither. -/
theorem team_card_empty_message (result : Option Report) (isExpanded : Bool)
    (team : UserDetail) :
    (team.members = none ∨ team.members = some [] →
      (teamMembersEmptyMessage result true team
          = some "No members found or insufficient permissions to view team members." ∨
        teamMembersEmptyMessage result true team
          = some
            "Team member details unavailable. Add a GitHub token with org:read scope to view team members.") ∧
      "No members found or insufficient permissions to view team members."
        ≠ "Team member details unavailable. Add a GitHub token with org:read scope to view team members." ∧
      (teamMembersEmptyMessage result true team
          = some "No members found or insufficient permissions to view team members." ↔
        ∃ r, result = some r ∧ r.teamsConfigured = true) ∧
      (teamMembersEmptyMessage result true team
          = some
            "Team member details unavailable. Add a GitHub token with org:read scope to view team members." ↔
        result = none ∨ ∃ r, result = some r ∧ r.teamsConfigured = false)) ∧
    (∀ member rest, team.members = some (member :: rest) →
      teamMembersEmptyMessage result isExpanded team = none) := by
  have hA : "No members found or insufficient permissions to view team members."
      = noMembersMessage := rfl
  have hB :
      "Team member details unavailable. Add a GitHub token with org:read scope to view team members."
        = addTokenMessage := rfl
  rw [hA, hB]
  have hne : noMembersMessage ≠ addTokenMessage := by decide
  refine ⟨?_, ?_⟩
  · intro hm
    have hmsg : teamMembersEmptyMessage result true team
        = some (if (result.map (fun r => r.teamsConfigured)).getD false then noMembersMessage
            else addTokenMessage) := by
      rcases hm with hm | hm <;> simp [teamMembersEmptyMessage, hm]
    rw [hmsg]
    cases result with
    | none => simp [hne, Ne.symm hne]
    | some r => cases hc : r.teamsConfigured <;> simp [hc, hne, Ne.symm hne]
  · intro member rest hm
    simp [teamMembersEmptyMessage, hm]

/-- Witness for `team_card_empty_message`: an expanded team card without
members under a report with `teamsConfigured = true` and under no report, and
a team card with one member. -/
theorem team_card_empty_message_witness :
    teamMembersEmptyMessage
        (some { minRequiredApprovals := none, allUserDetails := [], approvals := [],
                requestedReviewers := [], teamsConfigured := true })
        true
        { username := "org/core", name := some "core", type := some "team", members := none }
      = some "No members found or insufficient permissions to view team members." ∧
    teamMembersEmptyMessage none true
        { username := "org/core", name := some "core", type := some "team",
          members := some [] }
      = some
            "Team member details unavailable. Add a GitHub token with org:read scope to view team members." ∧
    teamMembersEmptyMessage none true
        { username := "org/core", name := some "core", type := some "team",
          members := some [{ login := some "carol", username := none, name := none }] }
      = none :=
  ⟨((team_card_empty_message
      (some { minRequiredApprovals := none, allUserDetails := [], approvals := [],
              requestedReviewers := [], teamsConfigured := true })
      true
      { username := "org/core", name := some "core", type := some "team", members := none }).1
      (Or.inl rfl)).2.2.1.mpr ⟨_, rfl, rfl⟩,
   ((team_card_empty_message none true
      { username := "org/core", name := some "core", type := some "team",
        members := some [] }).1 (Or.inr rfl)).2.2.2.mpr (Or.inl rfl),
   (team_card_empty_message none true
      { username := "org/core", name := some "core", type := some "team",
        members := some [{ login := some "carol", username := none, name := none }] }).2
      { login := some "carol", username := none, name := none } [] rfl⟩

/-! ## Client: approval chances -/

/-- The first element of a list that satisfies a test is found by `find?`. -/
theorem find?_first {α : Type} (f : α → Bool) (l before after : List α) (x : α)
    (hsplit : l = before ++ x :: after) (hx : f x = true)
    (hbefore : ∀ y ∈ before, f y = false) : l.find? f = some x := by
  have hnone : before.find? f = none := by
    rw [List.find?_eq_none]
    intro y hy
    simp [hbefore y hy]
  rw [hsplit, List.find?_append, hnone]
  simp [List.find?_cons, hx]

/-- The shared lookup gives nothing iff no prediction carries the name, plain
or prefixed by `@`. -/
theorem findPrediction_eq_none (predictions : List Prediction) (username : String) :
    findPrediction predictions username = none ↔
      ∀ p ∈ predictions, p.approver ≠ username ∧ p.approver ≠ "@" ++ username := by
  unfold findPrediction
  cases h : predictions.find? (fun p => p.approver == username) with
  | some q =>
    have hq := List.find?_some h
    have hmem := List.mem_of_find?_eq_some h
    simp only [false_iff, reduceCtorEq]
    intro hall
    exact (hall q hmem).1 (by simpa using hq)
  | none =>
    rw [List.find?_eq_none] at h
    simp only [List.find?_eq_none]
    constructor
    · intro h2 p hp
      exact ⟨by simpa using h p hp, by simpa using h2 p hp⟩
    · intro hall p hp
      simpa using (hall p hp).2

/-- C18: for a non-empty username both `getMLApprovalChance` and
`getGeneralMLApprovalChance` use the first prediction whose approver equals
the username exactly, and only when there is none the first prediction whose
approver is `@` followed by the username; each returns null iff the
predictions are absent, the username is empty, or neither kind of prediction
exists. -/
theorem approval_chance_lookup (state : Option PredictionSet) (predictions : List Prediction)
    (username : String) :
    (username ≠ "" → ∀ before p after, predictions = before ++ p :: after →
      p.approver = username → (∀ q ∈ before, q.approver ≠ username) →
      getMLApprovalChance (some ⟨some predictions⟩) username
          = some ⟨chancePercentage p.confidence, p.isFallback.getD false⟩ ∧
        getGeneralMLApprovalChance (some ⟨some predictions⟩) username
          = some ⟨chancePercentage p.confidence, true⟩) ∧
    (username ≠ "" → (∀ q ∈ predictions, q.approver ≠ username) →
      ∀ before p after, predictions = before ++ p :: after →
      p.approver = "@" ++ username → (∀ q ∈ before, q.approver ≠ "@" ++ username) →
      getMLApprovalChance (some ⟨some predictions⟩) username
          = some ⟨chancePercentage p.confidence, p.isFallback.getD false⟩ ∧
        getGeneralMLApprovalChance (some ⟨some predictions⟩) username
          = some ⟨chancePercentage p.confidence, true⟩) ∧
    (getMLApprovalChance state username = none ↔
      state.bind (fun m => m.predictions) = none ∨ username = "" ∨
        ∃ l, state.bind (fun m => m.predictions) = some l ∧
          ∀ p ∈ l, p.approver ≠ username ∧ p.approver ≠ "@" ++ username) ∧
    (getGeneralMLApprovalChance state username = none ↔
      state.bind (fun m => m.predictions) = none ∨ username = "" ∨
        ∃ l, state.bind (fun m => m.predictions) = some l ∧
          ∀ p ∈ l, p.approver ≠ username ∧ p.approver ≠ "@" ++ username) := by
  refine ⟨?_, ?_, ?_, ?_⟩
  · intro hname before p after hsplit hp hbefore
    have hfind : predictions.find? (fun q => q.approver == username) = some p :=
      find?_first _ predictions before after p hsplit (by simp [hp])
        (fun q hq => by simpa using hbefore q hq)
    have hfp : findPrediction predictions username = some p := by
      simp [findPrediction, hfind]
    simp [getMLApprovalChance, getGeneralMLApprovalChance, hname, hfp]
  · intro hname hnone before p after hsplit hp hbefore
    have hexact : predictions.find? (fun q => q.approver == username) = none := by
      rw [List.find?_eq_none]
      intro q hq
      simpa using hnone q hq
    have hfind : predictions.find? (fun q => q.approver == "@" ++ username) = some p :=
      find?_first _ predictions before after p hsplit (by simp [hp])
        (fun q hq => by simpa using hbefore q hq)
    have hfp : findPrediction predictions username = some p := by
      simp [findPrediction, hexact, hfind]
    simp [getMLApprovalChance, getGeneralMLApprovalChance, hname, hfp]
  · unfold getMLApprovalChance
    cases hs : state.bind (fun m => m.predictions) with
    | none => simp
    | some l =>
      by_cases hname : username = ""
      · simp [hname]
      · simp only [hname, if_false, false_or, reduceCtorEq]
        constructor
        · intro hres
          refine ⟨l, rfl, (findPrediction_eq_none l username).mp ?_⟩
          cases hf : findPrediction l username with
          | none => rfl
          | some q =>
            rw [hf] at hres
            cases hres
        · rintro ⟨l2, hl2, hall⟩
          cases hl2
          rw [(findPrediction_eq_none l username).mpr hall]
  · unfold getGeneralMLApprovalChance
    cases hs : state.bind (fun m => m.predictions) with
    | none => simp
    | some l =>
      by_cases hname : username = ""
      · simp [hname]
      · simp only [hname, if_false, false_or, reduceCtorEq]
        constructor
        · intro hres
          refine ⟨l, rfl, (findPrediction_eq_none l username).mp ?_⟩
          cases hf : findPrediction l username with
          | none => rfl
          | some q =>
            rw [hf] at hres
            cases hres
        · rintro ⟨l2, hl2, hall⟩
          cases hl2
          rw [(findPrediction_eq_none l username).mpr hall]

/-- Witness for `approval_chance_lookup`: with predictions for `@bob`, `bob`,
`bob` the first exact one is used for `bob`; with predictions for `alice` and
`@bob` only, the prefixed one is used. -/
theorem approval_chance_lookup_witness :
    getMLApprovalChance
        (some ⟨some [predictionFor "@bob" 1 4, predictionFor "bob" 1 2, predictionFor "bob" 1 1]⟩)
        "bob"
      = some ⟨chancePercentage ⟨1, 2⟩, false⟩ ∧
    getGeneralMLApprovalChance
        (some ⟨some [predictionFor "alice" 1 2, predictionFor "@bob" 1 4]⟩) "bob"
      = some ⟨chancePercentage ⟨1, 4⟩, true⟩ :=
  ⟨((approval_chance_lookup none
        [predictionFor "@bob" 1 4, predictionFor "bob" 1 2, predictionFor "bob" 1 1] "bob").1
      (by decide) [predictionFor "@bob" 1 4] (predictionFor "bob" 1 2) [predictionFor "bob" 1 1]
      rfl rfl (by decide)).1,
   ((approval_chance_lookup none
        [predictionFor "alice" 1 2, predictionFor "@bob" 1 4] "bob").2.1
      (by decide) (by decide) [predictionFor "alice" 1 2] (predictionFor "@bob" 1 4) []
      rfl rfl (by decide)).2⟩

/-! ## Client: what is persisted -/

/-- Blanking the token commutes with one operation, and the writes of the
operation do not change. -/
theorem step_eraseToken (s : AppState) (e : AppEvent) :
    (step s.eraseToken e.eraseToken).1 = (step s e).1.eraseToken ∧
    (step s.eraseToken e.eraseToken).2 = (step s e).2 := by
  cases e with
  | openApprovalsInfo =>
    by_cases h : s.isFirstTimeUser = true
    · simp [step, AppState.eraseToken, AppEvent.eraseToken, h]
    · simp [step, AppState.eraseToken, AppEvent.eraseToken, h]
  | _ => simp [step, AppState.eraseToken, AppEvent.eraseToken]

/-- The writes of a sequence of operations are those of the sequence with all
tokens blanked. -/
theorem run_eraseToken (events : List AppEvent) (s : AppState) :
    (run s events).2 = (run s.eraseToken (events.map AppEvent.eraseToken)).2 := by
  induction events generalizing s with
  | nil => rfl
  | cons e es ih =>
    simp only [run, List.map_cons]
    rw [(step_eraseToken s e).2, (step_eraseToken s e).1, ← ih]

/-- C15: the token is never persisted.  Two runs of the app that agree on
everything but the token (the token in the initial state and the tokens typed
into the token field along the way) perform the same sequence of
`localStorage` writes; the values written under `currentTheme`, `recentPRs`
and `hasSeenInfoModal` do not depend on `githubToken`. -/
theorem storage_writes_independent_of_token (s1 s2 : AppState) (events1 events2 : List AppEvent)
    (hstate : s1.eraseToken = s2.eraseToken)
    (hevents : events1.map AppEvent.eraseToken = events2.map AppEvent.eraseToken) :
    (run s1 events1).2 = (run s2 events2).2 := by
  rw [run_eraseToken events1 s1, run_eraseToken events2 s2, hstate, hevents]

/-- Witness for `storage_writes_independent_of_token`: the same session run
with the tokens `ghp_a` and `ghp_b`, the token being retyped midway. -/
theorem storage_writes_independent_of_token_witness :
    (run (freshState "ghp_a")
        [AppEvent.changeTheme "dark", AppEvent.setGithubToken "ghp_c",
         AppEvent.analysed "2025-01-01T00:00:00.000Z" (prDataAt "https://github.com/o/r/pull/1"),
         AppEvent.openApprovalsInfo,
         AppEvent.deleteFromHistory "https://github.com/o/r/pull/1",
         AppEvent.clearHistory]).2
      = (run (freshState "ghp_b")
        [AppEvent.changeTheme "dark", AppEvent.setGithubToken "ghp_d",
         AppEvent.analysed "2025-01-01T00:00:00.000Z" (prDataAt "https://github.com/o/r/pull/1"),
         AppEvent.openApprovalsInfo,
         AppEvent.deleteFromHistory "https://github.com/o/r/pull/1",
         AppEvent.clearHistory]).2 :=
  storage_writes_independent_of_token (freshState "ghp_a") (freshState "ghp_b") _ _ rfl rfl

/-! ## Client: team approval rates -/

/-- A Number produced by a rounded operation has a positive denominator. -/
theorem roundToDouble_den_pos (n d : Nat) : 0 < (roundToDouble n d).den := by
  have key : ∀ (c : Prop) [Decidable c] (a b : JsNumber),
      0 < a.den → 0 < b.den → 0 < (if c then a else b).den := by
    intro c _ a b ha hb
    split <;> assumption
  unfold roundToDouble
  apply key
  · exact Nat.one_pos
  · dsimp only
    apply key
    · exact Nat.pos_pow_of_pos _ (by decide)
    · exact Nat.one_pos

/-- The order `x ≥ y` on Numbers is transitive across a positive denominator. -/
theorem JsNumber.ge_trans (a b c : JsNumber) (hb : 0 < b.den)
    (hab : JsNumber.lt a b = false) (hbc : JsNumber.lt b c = false) :
    JsNumber.lt a c = false := by
  simp only [JsNumber.lt, decide_eq_false_iff_not, Nat.not_lt] at *
  have h1 : c.num * a.den * b.den ≤ a.num * c.den * b.den := by
    calc c.num * a.den * b.den = (c.num * b.den) * a.den := by ring
      _ ≤ (b.num * c.den) * a.den := Nat.mul_le_mul_right _ hbc
      _ = (b.num * a.den) * c.den := by ring
      _ ≤ (a.num * b.den) * c.den := Nat.mul_le_mul_right _ hab
      _ = a.num * c.den * b.den := by ring
  exact Nat.le_of_mul_le_mul_right h1 hb

/-- The total is the sum of the counts, a missing count being 0. -/
theorem totalCount_eq_sum (topApprovers : List TopApprover) :
    totalCount topApprovers = (topApprovers.map (fun item => item.totalApprovals.getD 0)).sum := by
  have h : ∀ (l : List TopApprover) (acc : Nat),
      l.foldl (fun sum item => sum + item.totalApprovals.getD 0) acc
        = acc + (l.map (fun item => item.totalApprovals.getD 0)).sum := by
    intro l
    induction l with
    | nil => intro acc; simp
    | cons x xs ih =>
      intro acc
      simp only [List.foldl_cons, List.map_cons, List.sum_cons, ih]
      omega
  simpa [totalCount] using h topApprovers 0

/-- Inserting a rate keeps the entries, up to order. -/
theorem insertRate_perm (r : ApprovalRate) (l : List ApprovalRate) :
    (insertRate r l).Perm (r :: l) := by
  induction l with
  | nil => simp [insertRate]
  | cons x xs ih =>
    unfold insertRate
    split
    · exact (List.Perm.cons x ih).trans (List.Perm.swap r x xs)
    · exact List.Perm.refl _

/-- Sorting keeps the entries, up to order. -/
theorem sortRates_perm (l : List ApprovalRate) : (sortRates l).Perm l := by
  induction l with
  | nil => exact List.Perm.refl _
  | cons x xs ih => exact (insertRate_perm x (sortRates xs)).trans (List.Perm.cons x ih)

/-- Inserting into a list sorted by confidence descending keeps it sorted. -/
theorem insertRate_sorted (r : ApprovalRate) (l : List ApprovalRate)
    (hden : ∀ x ∈ l, 0 < x.confidence.den)
    (hl : l.Pairwise (fun a b => JsNumber.lt a.confidence b.confidence = false)) :
    (insertRate r l).Pairwise (fun a b => JsNumber.lt a.confidence b.confidence = false) := by
  induction l with
  | nil => simp [insertRate]
  | cons x xs ih =>
    rw [List.pairwise_cons] at hl
    unfold insertRate
    split
    · rename_i hlt
      rw [List.pairwise_cons]
      refine ⟨?_, ih (fun y hy => hden y (List.mem_cons_of_mem _ hy)) hl.2⟩
      intro y hy
      rcases List.mem_cons.mp ((insertRate_perm r xs).subset hy) with hy | hy
      · subst hy
        simp only [JsNumber.lt, decide_eq_true_eq, decide_eq_false_iff_not, Nat.not_lt] at *
        omega
      · exact hl.1 y hy
    · rename_i hlt
      have hrx : JsNumber.lt r.confidence x.confidence = false := by simpa using hlt
      rw [List.pairwise_cons]
      refine ⟨?_, List.pairwise_cons.mpr hl⟩
      intro y hy
      rcases List.mem_cons.mp hy with hy | hy
      · subst hy
        exact hrx
      · exact JsNumber.ge_trans _ _ _ (hden x (List.mem_cons_self _ _)) hrx (hl.1 y hy)

/-- Sorting gives a list ordered by confidence descending. -/
theorem sortRates_sorted (l : List ApprovalRate) (hden : ∀ x ∈ l, 0 < x.confidence.den) :
    (sortRates l).Pairwise (fun a b => JsNumber.lt a.confidence b.confidence = false) := by
  induction l with
  | nil => simp [sortRates]
  | cons x xs ih =>
    have hxs := ih (fun y hy => hden y (List.mem_cons_of_mem _ hy))
    exact insertRate_sorted x (sortRates xs)
      (fun y hy => hden y (List.mem_cons_of_mem _ ((sortRates_perm xs).subset hy))) hxs

/-- The literal `0.01` is the binary64 value 5764607523034235 / 2^59. -/
theorem onePercent_eq : onePercent = ⟨5764607523034235, 576460752303423488⟩ := by
  decide

/-- The name chosen by `item.approver || item.name || item.username` is
present and non-empty iff it is the first of the three fields that is present
and non-empty. -/
theorem firstName_iff (approver name username : Option String) (chosen : String) :
    (orElseStr (orElseStr approver name) username = some chosen ∧ chosen ≠ "") ↔
      (approver = some chosen ∧ chosen ≠ "") ∨
      ((approver = none ∨ approver = some "") ∧ name = some chosen ∧ chosen ≠ "") ∨
      ((approver = none ∨ approver = some "") ∧ (name = none ∨ name = some "") ∧
        username = some chosen ∧ chosen ≠ "") := by
  have hfirst : ∀ (x y : Option String), (x = none ∨ x = some "") → orElseStr x y = y := by
    intro x y hx
    rcases hx with hx | hx <;> simp [orElseStr, hx]
  have hkeep : ∀ (x y : Option String) (v : String), x = some v → v ≠ "" →
      orElseStr x y = some v := by
    intro x y v hx hv
    simp [orElseStr, hx, hv]
  have hcases : ∀ x : Option String,
      (x = none ∨ x = some "") ∨ ∃ v, x = some v ∧ v ≠ "" := by
    intro x
    cases x with
    | none => exact Or.inl (Or.inl rfl)
    | some v =>
      by_cases hv : v = ""
      · exact Or.inl (Or.inr (by rw [hv]))
      · exact Or.inr ⟨v, rfl, hv⟩
  rcases hcases approver with ha | ⟨va, ha, hva⟩
  · rw [hfirst approver name ha]
    have hna : ¬ (approver = some chosen ∧ chosen ≠ "") := by
      rintro ⟨h1, h2⟩
      rcases ha with ha | ha
      · rw [ha] at h1
        cases h1
      · rw [ha] at h1
        exact h2 (Option.some.inj h1).symm
    rcases hcases name with hn | ⟨vn, hn, hvn⟩
    · rw [hfirst name username hn]
      have hnn : ¬ (name = some chosen ∧ chosen ≠ "") := by
        rintro ⟨h1, h2⟩
        rcases hn with hn | hn
        · rw [hn] at h1
          cases h1
        · rw [hn] at h1
          exact h2 (Option.some.inj h1).symm
      constructor
      · intro h
        exact Or.inr (Or.inr ⟨ha, hn, h.1, h.2⟩)
      · rintro (h | ⟨_, h1, h2⟩ | ⟨_, _, h1, h2⟩)
        · exact absurd h hna
        · exact absurd ⟨h1, h2⟩ hnn
        · exact ⟨h1, h2⟩
    · rw [hkeep name username vn hn hvn]
      constructor
      · rintro ⟨h1, h2⟩
        have hv : vn = chosen := Option.some.inj h1
        exact Or.inr (Or.inl ⟨ha, by rw [hn, hv], h2⟩)
      · rintro (h | ⟨_, h1, h2⟩ | ⟨_, h0, _, _⟩)
        · exact absurd h hna
        · rw [hn] at h1
          exact ⟨h1, h2⟩
        · exfalso
          rcases h0 with h0 | h0
          · rw [hn] at h0
            cases h0
          · rw [hn] at h0
            exact hvn (Option.some.inj h0)
  · rw [hkeep approver name va ha hva, hkeep (some va) username va rfl hva]
    constructor
    · rintro ⟨h1, h2⟩
      have hv : va = chosen := Option.some.inj h1
      exact Or.inl ⟨by rw [ha, hv], h2⟩
    · rintro (⟨h1, h2⟩ | ⟨h0, _, _⟩ | ⟨h0, _, _, _⟩)
      · rw [ha] at h1
        exact ⟨h1, h2⟩
      · exfalso
        rcases h0 with h0 | h0
        · rw [ha] at h0
          cases h0
        · rw [ha] at h0
          exact hva (Option.some.inj h0)
      · exfalso
        rcases h0 with h0 | h0
        · rw [ha] at h0
          cases h0
        · rw [ha] at h0
          exact hva (Option.some.inj h0)

/-- C20: for a `topApprovers` list whose total of `totalApprovals` (a missing
count is 0) is positive, `getTeamApprovalRates` returns the first 20 entries
of a list `sorted` that is ordered by confidence descending and holds exactly
the entries that have a name (the first of approver, name, username that is
present and non-empty) and a confidence above 0.01 (the binary64 value
5764607523034235 / 2^59), each with confidence = its `totalApprovals` divided
by the total; it returns null when the list is absent or empty or the total is
0.  With counts 1, 99, 100 for `a`, `b`, `c` it returns `c` (0.5) then `b`
(0.495) and drops `a` (0.005). -/
theorem team_approval_rates (topApprovers : List TopApprover) (total : Nat)
    (htotal : total = (topApprovers.map (fun item => item.totalApprovals.getD 0)).sum) :
    (0 < total →
      ∃ sorted : List ApprovalRate,
        getTeamApprovalRates (some topApprovers)
          = some { predictions := sorted.take 20, isGeneral := true } ∧
        (sorted.take 20).length = min 20 sorted.length ∧
        sorted.Perm
          ((topApprovers.map (fun item =>
              ({ approver := orElseStr (orElseStr item.approver item.name) item.username
                 confidence := JsNumber.div (JsNumber.ofNat (item.totalApprovals.getD 0))
                   (JsNumber.ofNat total)
                 totalApprovals := item.totalApprovals.getD 0
                 isGeneral := true } : ApprovalRate))).filter
            (fun p =>
              (match p.approver with
                | some name => name != ""
                | none => false) &&
              decide (5764607523034235 * p.confidence.den
                < p.confidence.num * 576460752303423488))) ∧
        sorted.Pairwise (fun x y =>
          y.confidence.num * x.confidence.den ≤ x.confidence.num * y.confidence.den) ∧
        ∀ r, r ∈ sorted ↔
          ∃ item ∈ topApprovers, ∃ chosen : String,
            ((item.approver = some chosen ∧ chosen ≠ "") ∨
              ((item.approver = none ∨ item.approver = some "") ∧
                item.name = some chosen ∧ chosen ≠ "") ∨
              ((item.approver = none ∨ item.approver = some "") ∧
                (item.name = none ∨ item.name = some "") ∧
                item.username = some chosen ∧ chosen ≠ "")) ∧
            5764607523034235 *
                (JsNumber.div (JsNumber.ofNat (item.totalApprovals.getD 0))
                  (JsNumber.ofNat total)).den
              < (JsNumber.div (JsNumber.ofNat (item.totalApprovals.getD 0))
                  (JsNumber.ofNat total)).num * 576460752303423488 ∧
            r = { approver := some chosen
                  confidence := JsNumber.div (JsNumber.ofNat (item.totalApprovals.getD 0))
                    (JsNumber.ofNat total)
                  totalApprovals := item.totalApprovals.getD 0
                  isGeneral := true }) ∧
    getTeamApprovalRates none = none ∧
    getTeamApprovalRates (some []) = none ∧
    (total = 0 → getTeamApprovalRates (some topApprovers) = none) ∧
    getTeamApprovalRates
        (some [⟨some "a", none, none, some 1⟩, ⟨none, some "b", none, some 99⟩,
               ⟨none, none, some "c", some 100⟩])
      = some
          { predictions :=
              [{ approver := some "c", confidence := ⟨4503599627370496, 9007199254740992⟩,
                 totalApprovals := 100, isGeneral := true },
               { approver := some "b", confidence := ⟨8917127262193582, 18014398509481984⟩,
                 totalApprovals := 99, isGeneral := true }]
            isGeneral := true } := by
  have htc : totalCount topApprovers = total := by rw [htotal, totalCount_eq_sum]
  have hmap : approvalRateOf total = fun item =>
      ({ approver := orElseStr (orElseStr item.approver item.name) item.username
         confidence := JsNumber.div (JsNumber.ofNat (item.totalApprovals.getD 0))
           (JsNumber.ofNat total)
         totalApprovals := item.totalApprovals.getD 0
         isGeneral := true } : ApprovalRate) := rfl
  have hkeepfun : keepRate = fun p =>
      (match p.approver with
        | some name => name != ""
        | none => false) &&
      decide (5764607523034235 * p.confidence.den
        < p.confidence.num * 576460752303423488) := by
    funext p
    simp only [keepRate, JsNumber.lt, onePercent_eq]
  refine ⟨?_, rfl, rfl, ?_, by decide⟩
  · intro hpos
    have hlen : topApprovers.length > 0 := by
      cases topApprovers with
      | nil =>
        rw [← htc] at hpos
        simp [totalCount] at hpos
      | cons _ _ => simp
    have hmemf : ∀ r, r ∈ (topApprovers.map (approvalRateOf total)).filter keepRate ↔
        keepRate r = true ∧ ∃ item ∈ topApprovers, approvalRateOf total item = r := by
      intro r
      rw [List.mem_filter, List.mem_map]
      exact ⟨fun h => ⟨h.2, h.1⟩, fun h => ⟨h.2, h.1⟩⟩
    have hden : ∀ r ∈ (topApprovers.map (approvalRateOf total)).filter keepRate,
        0 < r.confidence.den := by
      intro r hr
      obtain ⟨_, item, _, rfl⟩ := (hmemf r).mp hr
      exact roundToDouble_den_pos _ _
    refine ⟨sortRates ((topApprovers.map (approvalRateOf total)).filter keepRate),
      ?_, ?_, ?_, ?_, ?_⟩
    · simp [getTeamApprovalRates, hlen, htc, hpos]
    · rw [List.length_take]
    · rw [← hmap, ← hkeepfun]
      exact sortRates_perm _
    · refine List.Pairwise.imp ?_ (sortRates_sorted _ hden)
      intro x y hxy
      simpa [JsNumber.lt] using hxy
    · intro r
      rw [(sortRates_perm _).mem_iff, hmemf]
      constructor
      · rintro ⟨hkeep, item, hitem, rfl⟩
        rw [hkeepfun] at hkeep
        simp only [Bool.and_eq_true, decide_eq_true_eq] at hkeep
        cases hname : (approvalRateOf total item).approver with
        | none => simp [hname] at hkeep
        | some chosen =>
          have hne : chosen ≠ "" := by
            have := hkeep.1
            simp only [hname, bne_iff_ne, ne_eq] at this
            exact this
          have hname' : orElseStr (orElseStr item.approver item.name) item.username
              = some chosen := hname
          refine ⟨item, hitem, chosen,
            (firstName_iff _ _ _ chosen).mp ⟨hname', hne⟩, hkeep.2, ?_⟩
          simp only [approvalRateOf, hname']
      · rintro ⟨item, hitem, chosen, hfirst, hlt, rfl⟩
        obtain ⟨hname, hne⟩ := (firstName_iff _ _ _ chosen).mpr hfirst
        refine ⟨?_, item, hitem, ?_⟩
        · rw [hkeepfun]
          simp only [Bool.and_eq_true, decide_eq_true_eq, bne_iff_ne, ne_eq]
          exact ⟨hne, hlt⟩
        · simp only [approvalRateOf, hname]
  · intro hzero
    simp [getTeamApprovalRates, htc, hzero]

/-- Witness for `team_approval_rates`: three approvers with 1, 99 and 100
approvals out of 200; the entries `c` and `b` are in the sorted list. -/
theorem team_approval_rates_witness :
    ∃ sorted : List ApprovalRate,
      getTeamApprovalRates
          (some [⟨some "a", none, none, some 1⟩, ⟨none, some "b", none, some 99⟩,
                 ⟨none, none, some "c", some 100⟩])
        = some { predictions := sorted.take 20, isGeneral := true } ∧
      sorted.Pairwise (fun x y =>
        y.confidence.num * x.confidence.den ≤ x.confidence.num * y.confidence.den) ∧
      ({ approver := some "b"
         confidence := JsNumber.div (JsNumber.ofNat 99) (JsNumber.ofNat 200)
         totalApprovals := 99
         isGeneral := true } : ApprovalRate) ∈ sorted :=
  have h := (team_approval_rates [⟨some "a", none, none, some 1⟩,
    ⟨none, some "b", none, some 99⟩, ⟨none, none, some "c", some 100⟩] 200 (by decide)).1
    (by decide)
  h.elim fun sorted hs =>
    ⟨sorted, hs.1, hs.2.2.2.1,
      (hs.2.2.2.2 _).mpr
        ⟨⟨none, some "b", none, some 99⟩, by simp, "b",
          Or.inr (Or.inl ⟨Or.inl rfl, rfl, by decide⟩), by decide, rfl⟩⟩

/-! ## Engine: unowned files and emission order -/

/-- Inserting a key gives a non-empty list whose entries are the key or
entries of the list. -/
theorem insertKey_spec (k : String) (l : List String) :
    insertKey k l ≠ [] ∧ ∀ x ∈ insertKey k l, x = k ∨ x ∈ l := by
  induction l with
  | nil => simp [insertKey]
  | cons y ys ih =>
    unfold insertKey
    split
    · exact ⟨by simp, fun x hx => Or.inr hx⟩
    · split
      · refine ⟨by simp, fun x hx => ?_⟩
        rcases List.mem_cons.mp hx with hx | hx
        · exact Or.inl hx
        · exact Or.inr hx
      · refine ⟨by simp, fun x hx => ?_⟩
        rcases List.mem_cons.mp hx with hx | hx
        · exact Or.inr (hx ▸ List.mem_cons_self _ _)
        · rcases ih.2 x hx with h | h
          · exact Or.inl h
          · exact Or.inr (List.mem_cons_of_mem _ h)

/-- The sorted keys are keys of the input. -/
theorem sortKeys_subset (l : List String) : ∀ x ∈ sortKeys l, x ∈ l := by
  induction l with
  | nil => simp [sortKeys]
  | cons k ks ih =>
    intro x hx
    rcases (insertKey_spec k (sortKeys ks)).2 x hx with h | h
    · exact h ▸ List.mem_cons_self _ _
    · exact List.mem_cons_of_mem _ (ih x h)

/-- Joining keys never shortens the part already joined. -/
theorem intercalate_go_length (sep : String) (l : List String) (acc : String) :
    acc.length ≤ (String.intercalate.go acc sep l).length := by
  induction l generalizing acc with
  | nil => simp [String.intercalate.go]
  | cons x xs ih =>
    simp only [String.intercalate.go]
    refine Nat.le_trans ?_ (ih _)
    simp only [String.length_append]
    omega

/-- The key of an owner is not empty. -/
theorem OwnerRef.key_length (o : OwnerRef) : 0 < o.key.length := by
  cases o with
  | User handle =>
    simp only [OwnerRef.key, String.length_append]
    have : "user:".length = 5 := by decide
    omega
  | Team slug =>
    simp only [OwnerRef.key, String.length_append]
    have : "team:".length = 5 := by decide
    omega

/-- Only the empty owner set has the signature of the empty owner set. -/
theorem signature_eq_empty (owners : List OwnerRef)
    (h : signature owners = signature []) : owners = [] := by
  cases owners with
  | nil => rfl
  | cons o os =>
    exfalso
    have hempty : signature [] = "" := by decide
    rw [hempty] at h
    unfold signature at h
    cases hs : sortKeys ((o :: os).map OwnerRef.key) with
    | nil =>
      exact (insertKey_spec o.key (sortKeys (os.map OwnerRef.key))).1 (by simpa [sortKeys] using hs)
    | cons a as =>
      rw [hs] at h
      have ha : a ∈ (o :: os).map OwnerRef.key :=
        sortKeys_subset _ a (by rw [hs]; exact List.mem_cons_self _ _)
      obtain ⟨o', _, rfl⟩ := List.mem_map.mp ha
      have hlen := intercalate_go_length " " as o'.key
      have hpos := OwnerRef.key_length o'
      have hzero : (String.intercalate " " (o'.key :: as)).length = 0 := by
        rw [h]
        rfl
      simp only [String.intercalate] at hzero
      omega

/-- A built group that holds a file carries the signature of that file. -/
theorem group_signature_of_file (rules : List OwnershipRule) (changedFiles : List String)
    (g : ApprovalGroup) (f : String)
    (hg : g ∈ buildGroups (changedFiles.map (resolveFile rules))) (hf : f ∈ g.files) :
    signature g.owners = signature (resolveFile rules f).owners := by
  obtain ⟨fo, hfo, hs, hp⟩ :=
    (buildGroups_mem (changedFiles.map (resolveFile rules)) (signature g.owners) f).mp
      ⟨g, hg, rfl, hf⟩
  obtain ⟨x, _, hx⟩ := List.mem_map.mp hfo
  have hxf : x = f := by
    rw [← hp, ← hx]
    rfl
  rw [← hs, ← hx, hxf]

/-- Every changed file lies in the built group that carries its signature. -/
theorem group_of_file (rules : List OwnershipRule) (changedFiles : List String) (f : String)
    (hf : f ∈ changedFiles) :
    ∃ g ∈ buildGroups (changedFiles.map (resolveFile rules)),
      signature g.owners = signature (resolveFile rules f).owners ∧ f ∈ g.files :=
  (buildGroups_mem (changedFiles.map (resolveFile rules)) _ f).mpr
    ⟨resolveFile rules f, List.mem_map_of_mem _ hf, rfl, rfl⟩

/-- A file that matches no rule has an empty owner set. -/
theorem resolveFile_no_match (rules : List OwnershipRule) (f : String)
    (hno : ∀ r ∈ rules, patternMatches r.pattern f = false) :
    (resolveFile rules f).owners = [] := by
  have hfilter : rules.filter (fun rule => patternMatches rule.pattern f) = [] := by
    rw [List.filter_eq_nil_iff]
    intro r hr
    simp [hno r hr]
  simp [resolveFile, lastMatch_eq, hfilter]

/-- C12 (as stated, refuted): with the rule `*.md @alice` the changed file `zz`
matches no rule and its group has `needsApproval = true`, not false; and with
an empty rules text the changed file `a.js` is in no group at all. -/
theorem unowned_file_counterexample :
    ¬ (∃ g ∈ (resolveApprovals ["zz"] "*.md @alice" ⟨[], []⟩ noRoster).minRequiredApprovals,
        "zz" ∈ g.files ∧ g.owners = [] ∧ g.unowned = true ∧ g.needsApproval = false) ∧
    ¬ (∃ g ∈ (resolveApprovals ["a.js"] "" ⟨[], []⟩ noRoster).minRequiredApprovals,
        "a.js" ∈ g.files) := by
  decide

/-- C12 (amended): for every input whose rules text yields at least one rule,
a changed file that matches no rule appears in exactly one group; that group
has an empty owner set, carries the unowned flag, and is reported with
`satisfied = false`, that is `needsApproval = true`; the file never appears in
a group with non-empty owners. -/
theorem unowned_file_group (changedFiles : List String) (rulesText : String)
    (reviewState : ReviewState) (teamLookup : String → Team) (f : String)
    (hrules : parseRules rulesText ≠ [])
    (hf : f ∈ changedFiles)
    (hno : ∀ r ∈ parseRules rulesText, patternMatches r.pattern f = false) :
    ∃ g ∈ (resolveApprovals changedFiles rulesText reviewState teamLookup).minRequiredApprovals,
      f ∈ g.files ∧ g.owners = [] ∧ g.unowned = true ∧
      g.satisfied = false ∧ g.needsApproval = true ∧
      ∀ g' ∈ (resolveApprovals changedFiles rulesText reviewState
          teamLookup).minRequiredApprovals, f ∈ g'.files → g' = g ∧ g'.owners = [] := by
  rw [resolveApprovals_groups _ _ _ _ hrules]
  generalize resolveTeams teamLookup
    (buildGroups (changedFiles.map (resolveFile (parseRules rulesText)))) = rosters
  obtain ⟨b, hb, hsig, hfb⟩ := group_of_file (parseRules rulesText) changedFiles f hf
  have hown : b.owners = [] := by
    apply signature_eq_empty
    rw [hsig, resolveFile_no_match _ _ hno]
  have hev := empty_group_evaluated rosters reviewState b hown
  refine ⟨evaluateGroup rosters reviewState b, List.mem_map_of_mem _ hb, ?_, ?_, hev.2.2, hev.1,
    hev.2.1, ?_⟩
  · rw [evaluateGroup_files]
    exact hfb
  · rw [evaluateGroup_owners]
    exact hown
  · intro g' hg' hfg'
    obtain ⟨b', hb', rfl⟩ := List.mem_map.mp hg'
    rw [evaluateGroup_files] at hfg'
    have hsig' := group_signature_of_file (parseRules rulesText) changedFiles b' f hb' hfg'
    have hbb : b' = b :=
      List.inj_on_of_nodup_map (buildGroups_nodup _) hb' hb (by rw [hsig', hsig])
    subst hbb
    exact ⟨rfl, by rw [evaluateGroup_owners]; exact hown⟩

/-- Witness for `unowned_file_group`: the file `zz` under the rule
`*.md @alice`. -/
theorem unowned_file_group_witness :
    ∃ g ∈ (resolveApprovals ["README.md", "zz"] "*.md @alice" ⟨["alice"], []⟩
        noRoster).minRequiredApprovals,
      "zz" ∈ g.files ∧ g.owners = [] ∧ g.unowned = true ∧
      g.satisfied = false ∧ g.needsApproval = true ∧
      ∀ g' ∈ (resolveApprovals ["README.md", "zz"] "*.md @alice" ⟨["alice"], []⟩
          noRoster).minRequiredApprovals, "zz" ∈ g'.files → g' = g ∧ g'.owners = [] :=
  unowned_file_group ["README.md", "zz"] "*.md @alice" ⟨["alice"], []⟩ noRoster "zz"
    (by decide) (by decide) (by decide)

/-- The index of the first element satisfying a test depends only on the
values of the test on the list. -/
theorem findIdx_congr {α : Type} (p q : α → Bool) (l : List α)
    (h : ∀ x ∈ l, p x = q x) : l.findIdx p = l.findIdx q := by
  apply Nat.le_antisymm
  · exact List.findIdx_le_findIdx (fun x hx hq => by rw [h x hx]; exact hq)
  · exact List.findIdx_le_findIdx (fun x hx hp => by rw [← h x hx]; exact hp)

/-- The index of the first element of a mapped list satisfying a test. -/
theorem findIdx_map {α β : Type} (f : α → β) (p : β → Bool) (l : List α) :
    (l.map f).findIdx p = l.findIdx (fun x => p (f x)) := by
  induction l with
  | nil => rfl
  | cons x xs ih => simp [List.findIdx_cons, ih]

/-- The signatures of the built groups are the signatures of the input
ownerships. -/
theorem buildGroups_signature_mem (ownerships : List FileOwnership) (s : String) :
    s ∈ (buildGroups ownerships).map (fun g => signature g.owners) ↔
      ∃ fo ∈ ownerships, signature fo.owners = s := by
  revert s
  induction ownerships using List.reverseRecOn with
  | nil =>
    intro s
    simp [buildGroups]
  | append_singleton fos fo ih =>
    intro s
    rw [buildGroups_append, addToGroups_signatures]
    split
    · rename_i hin
      rw [ih s]
      constructor
      · rintro ⟨fo', h1, h2⟩
        exact ⟨fo', List.mem_append_left _ h1, h2⟩
      · rintro ⟨fo', h1, h2⟩
        rcases List.mem_append.mp h1 with h1 | h1
        · exact ⟨fo', h1, h2⟩
        · rw [List.mem_singleton] at h1
          subst h1
          rw [← h2]
          exact (ih _).mp hin
    · rw [List.mem_append, ih s, List.mem_singleton]
      constructor
      · rintro (⟨fo', h1, h2⟩ | h)
        · exact ⟨fo', List.mem_append_left _ h1, h2⟩
        · exact ⟨fo, List.mem_append_right _ (List.mem_singleton_self _), h.symm⟩
      · rintro ⟨fo', h1, h2⟩
        rcases List.mem_append.mp h1 with h1 | h1
        · exact Or.inl ⟨fo', h1, h2⟩
        · rw [List.mem_singleton] at h1
          subst h1
          exact Or.inr h2.symm

/-- The signatures of the built groups are listed in the order in which they
first occur among the input ownerships. -/
theorem buildGroups_order (ownerships : List FileOwnership) :
    ((buildGroups ownerships).map (fun g => signature g.owners)).Pairwise
      (fun s t =>
        ownerships.findIdx (fun fo => signature fo.owners == s)
          < ownerships.findIdx (fun fo => signature fo.owners == t)) := by
  induction ownerships using List.reverseRecOn with
  | nil => simp [buildGroups]
  | append_singleton fos fo ih =>
    have hold : ∀ s ∈ (buildGroups fos).map (fun g => signature g.owners),
        (fos ++ [fo]).findIdx (fun fo' => signature fo'.owners == s)
          = fos.findIdx (fun fo' => signature fo'.owners == s) ∧
        fos.findIdx (fun fo' => signature fo'.owners == s) < fos.length := by
      intro s hs
      obtain ⟨fo', h1, h2⟩ := (buildGroups_signature_mem fos s).mp hs
      have hlt : fos.findIdx (fun fo' => signature fo'.owners == s) < fos.length :=
        List.findIdx_lt_length_of_exists ⟨fo', h1, by simp [h2]⟩
      rw [List.findIdx_append]
      simp [hlt]
    have hcarry : ((buildGroups fos).map (fun g => signature g.owners)).Pairwise
        (fun s t =>
          (fos ++ [fo]).findIdx (fun fo' => signature fo'.owners == s)
            < (fos ++ [fo]).findIdx (fun fo' => signature fo'.owners == t)) := by
      refine List.Pairwise.imp_of_mem ?_ ih
      intro s t hs ht hst
      rw [(hold s hs).1, (hold t ht).1]
      exact hst
    rw [buildGroups_append, addToGroups_signatures]
    split
    · exact hcarry
    · rename_i hnew
      rw [List.pairwise_append]
      refine ⟨hcarry, List.pairwise_singleton _ _, ?_⟩
      intro s hs t ht
      rw [List.mem_singleton] at ht
      subst ht
      rw [(hold s hs).1]
      have hnone : ∀ fo' ∈ fos, (signature fo'.owners == signature fo.owners) = false := by
        intro fo' hfo'
        by_contra hc
        apply hnew
        apply (buildGroups_signature_mem fos _).mpr
        exact ⟨fo', hfo', by simpa using hc⟩
      rw [List.findIdx_append, List.findIdx_eq_length_of_false hnone]
      simp only [Nat.lt_irrefl, if_false]
      have := (hold s hs).2
      omega

/-- C14: groups are emitted in first-occurrence order.  For every two emitted
groups G before H, the first changed file (in input order) that belongs to G
precedes the first changed file that belongs to H; the order is not
alphabetical: for the files `z.md`, `a.js` the group of `z.md` comes first. -/
theorem groups_in_first_occurrence_order (changedFiles : List String) (rulesText : String)
    (reviewState : ReviewState) (teamLookup : String → Team) :
    (resolveApprovals changedFiles rulesText reviewState teamLookup).minRequiredApprovals.Pairwise
        (fun G H =>
          changedFiles.findIdx (fun f => G.files.contains f)
            < changedFiles.findIdx (fun f => H.files.contains f)) ∧
      (resolveApprovals ["z.md", "a.js"] "*.md @zed\n*.js @amy" ⟨[], []⟩
          noRoster).minRequiredApprovals.map (fun g => g.files) = [["z.md"], ["a.js"]] := by
  refine ⟨?_, by decide⟩
  by_cases h : parseRules rulesText = []
  · rw [resolveApprovals_no_rules _ _ _ _ h]
    exact List.Pairwise.nil
  rw [resolveApprovals_groups _ _ _ _ h]
  generalize resolveTeams teamLookup
    (buildGroups (changedFiles.map (resolveFile (parseRules rulesText)))) = rosters
  rw [List.pairwise_map]
  have hord := buildGroups_order (changedFiles.map (resolveFile (parseRules rulesText)))
  rw [List.pairwise_map] at hord
  have hidx : ∀ b ∈ buildGroups (changedFiles.map (resolveFile (parseRules rulesText))),
      changedFiles.findIdx (fun f => (evaluateGroup rosters reviewState b).files.contains f)
        = (changedFiles.map (resolveFile (parseRules rulesText))).findIdx
            (fun fo => signature fo.owners == signature b.owners) := by
    intro b hb
    rw [findIdx_map, evaluateGroup_files]
    apply findIdx_congr
    intro f hf
    by_cases hfb : f ∈ b.files
    · have hs := group_signature_of_file (parseRules rulesText) changedFiles b f hb hfb
      simp [hfb, hs]
    · have hne : ¬ signature (resolveFile (parseRules rulesText) f).owners
          = signature b.owners := by
        intro heq
        obtain ⟨b', hb', hs', hfb'⟩ := group_of_file (parseRules rulesText) changedFiles f hf
        have hbb : b' = b :=
          List.inj_on_of_nodup_map (buildGroups_nodup _) hb' hb (by rw [hs', heq])
        exact hfb (hbb ▸ hfb')
      simp [hfb, hne]
  refine List.Pairwise.imp_of_mem ?_ hord
  intro a b ha hb hab
  rw [hidx a ha, hidx b hb]
  exact hab

/-! ## Client: deleting from the history -/

/-- C24: `deleteFromHistory` yields exactly the entries whose url differs from
the deleted url, in their original order (a sublist that keeps every such
entry with its multiplicity and nothing else); hence deleting a url that is
not in the list leaves the list unchanged, and deleting the same url twice
gives the same list as deleting it once. -/
theorem deleteFromHistory_spec (urlToDelete : String) (prev : List RecentPR) :
    (deleteFromHistory urlToDelete prev).Sublist prev ∧
    (∀ pr ∈ deleteFromHistory urlToDelete prev, pr.url ≠ urlToDelete) ∧
    (∀ pr, pr.url ≠ urlToDelete →
      (deleteFromHistory urlToDelete prev).count pr = prev.count pr) ∧
    ((∀ pr ∈ prev, pr.url ≠ urlToDelete) → deleteFromHistory urlToDelete prev = prev) ∧
    deleteFromHistory urlToDelete (deleteFromHistory urlToDelete prev)
      = deleteFromHistory urlToDelete prev := by
  refine ⟨List.filter_sublist _, ?_, ?_, ?_, ?_⟩
  · intro pr hpr
    have h := (List.mem_filter.mp hpr).2
    simpa using h
  · intro pr hpr
    unfold deleteFromHistory
    rw [List.count_filter]
    simpa using hpr
  · intro hall
    unfold deleteFromHistory
    rw [List.filter_eq_self]
    intro pr hpr
    simpa using hall pr hpr
  · unfold deleteFromHistory
    rw [List.filter_filter]
    congr 1
    funext pr
    simp

/-- Witness for `deleteFromHistory_spec`: deleting a url that is not in a
history of two entries leaves it unchanged, and an entry with another url keeps
its multiplicity. -/
theorem deleteFromHistory_spec_witness :
    deleteFromHistory "https://github.com/o/r/pull/9"
        [newRecentPR "2025-01-01T00:00:00.000Z" (prDataAt "https://github.com/o/r/pull/1"),
         newRecentPR "2025-01-02T00:00:00.000Z" (prDataAt "https://github.com/o/r/pull/2")]
      = [newRecentPR "2025-01-01T00:00:00.000Z" (prDataAt "https://github.com/o/r/pull/1"),
         newRecentPR "2025-01-02T00:00:00.000Z" (prDataAt "https://github.com/o/r/pull/2")] ∧
    (deleteFromHistory "https://github.com/o/r/pull/2"
        [newRecentPR "2025-01-01T00:00:00.000Z" (prDataAt "https://github.com/o/r/pull/1"),
         newRecentPR "2025-01-02T00:00:00.000Z" (prDataAt "https://github.com/o/r/pull/2")]).count
        (newRecentPR "2025-01-01T00:00:00.000Z" (prDataAt "https://github.com/o/r/pull/1"))
      = [newRecentPR "2025-01-01T00:00:00.000Z" (prDataAt "https://github.com/o/r/pull/1"),
         newRecentPR "2025-01-02T00:00:00.000Z"
           (prDataAt "https://github.com/o/r/pull/2")].count
        (newRecentPR "2025-01-01T00:00:00.000Z" (prDataAt "https://github.com/o/r/pull/1")) :=
  ⟨(deleteFromHistory_spec "https://github.com/o/r/pull/9"
      [newRecentPR "2025-01-01T00:00:00.000Z" (prDataAt "https://github.com/o/r/pull/1"),
       newRecentPR "2025-01-02T00:00:00.000Z" (prDataAt "https://github.com/o/r/pull/2")]).2.2.2.1
      (by decide),
   (deleteFromHistory_spec "https://github.com/o/r/pull/2"
      [newRecentPR "2025-01-01T00:00:00.000Z" (prDataAt "https://github.com/o/r/pull/1"),
       newRecentPR "2025-01-02T00:00:00.000Z" (prDataAt "https://github.com/o/r/pull/2")]).2.2.1
      (newRecentPR "2025-01-01T00:00:00.000Z" (prDataAt "https://github.com/o/r/pull/1"))
      (by decide)⟩

/-! ## Client: repository info from the PR URL -/

/-- Literal items match exactly their own text. -/
theorem matchItems_lits (l : List Char) (items : List RegexItem) (s : List Char) :
    matchItems (l.map RegexItem.lit ++ items) (l ++ s) = matchItems items s := by
  induction l with
  | nil => rfl
  | cons c cs ih => simp [matchItems, ih]

/-- If literal items followed by more items match a text, the text starts with
the literals and the remaining items match what follows. -/
theorem matchItems_lits_sound (l : List Char) (items : List RegexItem) (s : List Char)
    (r : List (List Char)) (h : matchItems (l.map RegexItem.lit ++ items) s = some r) :
    ∃ s', s = l ++ s' ∧ matchItems items s' = some r := by
  induction l generalizing s with
  | nil => exact ⟨s, rfl, h⟩
  | cons c cs ih =>
    cases s with
    | nil => simp [matchItems] at h
    | cons d s' =>
      simp only [List.map_cons, List.cons_append, matchItems] at h
      by_cases hcd : c = d
      · rw [if_pos hcd] at h
        obtain ⟨s'', hs, hm⟩ := ih s' h
        exact ⟨s'', by rw [hcd, hs]; rfl, hm⟩
      · rw [if_neg hcd] at h
        cases h

/-- A greedy repetition that can take the whole run `w`, after which the text
ends or continues outside the class, takes all of `w` when the rest of the
expression then matches. -/
theorem plusFrom_greedy (cls : CharClass)
    (k : List Char → List Char → Option (List (List Char)))
    (w taken rest : List Char) (r : List (List Char))
    (hw : ∀ c ∈ w, cls.test c = true)
    (hrest : ∀ c t, rest = c :: t → cls.test c = false)
    (hk : k (taken ++ w) rest = some r) :
    plusFrom cls k taken (w ++ rest) = some r := by
  induction w generalizing taken with
  | nil =>
    simp only [List.append_nil, List.nil_append] at hk ⊢
    cases rest with
    | nil => exact hk
    | cons c t => simp [plusFrom, hrest c t rfl, hk]
  | cons c w' ih =>
    have hc : cls.test c = true := hw c (List.mem_cons_self _ _)
    have hk' : k ((taken ++ [c]) ++ w') rest = some r := by
      simpa using hk
    have := ih (taken ++ [c]) (fun x hx => hw x (List.mem_cons_of_mem _ hx)) hk'
    simp [plusFrom, hc, this]

/-- Whatever a greedy repetition takes lies in the class, and the rest of the
expression matches what follows. -/
theorem plusFrom_sound (cls : CharClass)
    (k : List Char → List Char → Option (List (List Char)))
    (s taken : List Char) (r : List (List Char))
    (h : plusFrom cls k taken s = some r) :
    ∃ w rest, s = w ++ rest ∧ (∀ c ∈ w, cls.test c = true) ∧ k (taken ++ w) rest = some r := by
  induction s generalizing taken with
  | nil => exact ⟨[], [], rfl, by simp, by simpa [plusFrom] using h⟩
  | cons c s' ih =>
    simp only [plusFrom] at h
    by_cases hc : cls.test c = true
    · rw [if_pos hc] at h
      cases hp : plusFrom cls k (taken ++ [c]) s' with
      | some r' =>
        rw [hp] at h
        have hr : r' = r := by simpa using h
        rw [hr] at hp
        obtain ⟨w, rest, hs, hw, hk⟩ := ih (taken ++ [c]) hp
        refine ⟨c :: w, rest, by rw [hs]; rfl, ?_, ?_⟩
        · intro x hx
          rcases List.mem_cons.mp hx with hx | hx
          · exact hx ▸ hc
          · exact hw x hx
        · simpa using hk
      | none =>
        rw [hp] at h
        exact ⟨[], c :: s', rfl, by simp, by simpa using h⟩
    · rw [if_neg hc] at h
      exact ⟨[], c :: s', rfl, by simp, by simpa using h⟩

/-- A capture group takes the whole run in front of it. -/
theorem matchItems_group (cls : CharClass) (items : List RegexItem)
    (w rest : List Char) (r : List (List Char))
    (hne : w ≠ [])
    (hw : ∀ c ∈ w, cls.test c = true)
    (hrest : ∀ c t, rest = c :: t → cls.test c = false)
    (hk : matchItems items rest = some r) :
    matchItems (RegexItem.group cls :: items) (w ++ rest) = some (w :: r) := by
  cases w with
  | nil => exact absurd rfl hne
  | cons c w' =>
    have hc : cls.test c = true := hw c (List.mem_cons_self _ _)
    simp only [List.cons_append, matchItems, hc, if_true]
    apply plusFrom_greedy cls _ w' [c] rest (((c :: w') :: r))
      (fun x hx => hw x (List.mem_cons_of_mem _ hx)) hrest
    simp [hk]

/-- What a capture group takes is a non-empty run inside the class. -/
theorem matchItems_group_sound (cls : CharClass) (items : List RegexItem)
    (s : List Char) (r : List (List Char))
    (h : matchItems (RegexItem.group cls :: items) s = some r) :
    ∃ w rest r', s = w ++ rest ∧ w ≠ [] ∧ (∀ c ∈ w, cls.test c = true) ∧
      matchItems items rest = some r' ∧ r = w :: r' := by
  cases s with
  | nil => simp [matchItems] at h
  | cons d s' =>
    simp only [matchItems] at h
    by_cases hd : cls.test d = true
    · rw [if_pos hd] at h
      obtain ⟨w, rest, hs, hw, hk⟩ := plusFrom_sound cls _ s' [d] r h
      cases hm : matchItems items rest with
      | none => simp [hm] at hk
      | some r' =>
        refine ⟨d :: w, rest, r', by rw [hs]; rfl, by simp, ?_, hm, ?_⟩
        · intro x hx
          rcases List.mem_cons.mp hx with hx | hx
          · exact hx ▸ hd
          · exact hw x hx
        · simpa [hm] using hk.symm
    · rw [if_neg hd] at h
      cases h

/-- A match found by the search starts somewhere in the text. -/
theorem searchItems_sound (items : List RegexItem) (s : List Char) (r : List (List Char))
    (h : searchItems items s = some r) :
    ∃ pre s', s = pre ++ s' ∧ matchItems items s' = some r := by
  induction s with
  | nil => exact ⟨[], [], rfl, by simpa [searchItems] using h⟩
  | cons c s' ih =>
    simp only [searchItems] at h
    cases hm : matchItems items (c :: s') with
    | some r' =>
      rw [hm] at h
      exact ⟨[], c :: s', rfl, by rw [hm]; exact h⟩
    | none =>
      rw [hm] at h
      obtain ⟨pre, s'', hs, hm'⟩ := ih h
      exact ⟨c :: pre, s'', by rw [hs]; rfl, hm'⟩

/-- A match at the very start of the text is the result of the search. -/
theorem searchItems_hit (items : List RegexItem) (s : List Char) (r : List (List Char))
    (h : matchItems items s = some r) : searchItems items s = some r := by
  cases s with
  | nil => exact h
  | cons c s' => simp [searchItems, h]

/-- The regular expression, item by item. -/
theorem prUrlRegex_eq :
    prUrlRegex = "github.com/".data.map RegexItem.lit ++
      (RegexItem.group CharClass.notSlash :: ("/".data.map RegexItem.lit ++
        (RegexItem.group CharClass.notSlash :: ("/pull/".data.map RegexItem.lit ++
          [RegexItem.group CharClass.digit])))) := by
  simp [prUrlRegex, lits]

/-- The search moves on from a position that does not start with `g`. -/
theorem searchItems_skip (c : Char) (s : List Char) (hc : c ≠ 'g') :
    searchItems prUrlRegex (c :: s) = searchItems prUrlRegex s := by
  have hm : matchItems prUrlRegex (c :: s) = none := by
    rw [prUrlRegex_eq]
    simp [matchItems, Ne.symm hc]
  simp [searchItems, hm]

/-- A run without `/` lies in the class `[^/]`. -/
theorem notSlash_of_not_mem (w : List Char) (h : '/' ∉ w) :
    ∀ c ∈ w, CharClass.notSlash.test c = true := by
  intro c hc
  have hne : c ≠ '/' := fun e => h (e ▸ hc)
  simp [CharClass.test, hne]

/-- A run inside the class `[^/]` holds no `/`. -/
theorem not_mem_of_notSlash (w : List Char)
    (h : ∀ c ∈ w, CharClass.notSlash.test c = true) : '/' ∉ w := by
  intro hmem
  have := h '/' hmem
  simp [CharClass.test] at this

/-- C21: for a URL `https://github.com/<owner>/<repo>/pull/<n><rest>` with
owner and repo non-empty and free of `/`, `n` a non-empty run of decimal digits
and `rest` empty or starting with a non-digit, the extraction in `handleSubmit`
yields exactly owner, repo and `prNumber = n`; for a string with no substring
`github.com/<x>/<y>/pull/<digit>` (x, y non-empty and free of `/`) it yields
null. -/
theorem repo_info_extraction (owner repo n rest prUrl : String) :
    (owner.data ≠ [] ∧ '/' ∉ owner.data → repo.data ≠ [] ∧ '/' ∉ repo.data →
      n.data ≠ [] ∧ (∀ c ∈ n.data, c.isDigit = true) →
      (∀ c t, rest.data = c :: t → c.isDigit = false) →
      extractRepoInfo ("https://github.com/" ++ owner ++ "/" ++ repo ++ "/pull/" ++ n ++ rest)
        = some { owner := owner, repo := repo, prNumber := n }) ∧
    ((¬ ∃ pre x y d post,
        prUrl.data = pre ++ "github.com/".data ++ x ++ "/".data ++ y ++ "/pull/".data
          ++ [d] ++ post ∧
        x ≠ [] ∧ '/' ∉ x ∧ y ≠ [] ∧ '/' ∉ y ∧ d.isDigit = true) →
      extractRepoInfo prUrl = none) := by
  refine ⟨?_, ?_⟩
  · intro howner hrepo hn hrest
    have h3 : matchItems [RegexItem.group CharClass.digit] (n.data ++ rest.data)
        = some [n.data] :=
      matchItems_group CharClass.digit [] n.data rest.data [] hn.1 hn.2 hrest rfl
    have h2 : matchItems
        (RegexItem.group CharClass.notSlash :: ("/pull/".data.map RegexItem.lit ++
          [RegexItem.group CharClass.digit]))
        (repo.data ++ ("/pull/".data ++ (n.data ++ rest.data)))
        = some [repo.data, n.data] := by
      apply matchItems_group CharClass.notSlash _ repo.data _ _ hrepo.1
        (notSlash_of_not_mem _ hrepo.2)
      · intro c t hct
        have hc : c = '/' := by
          have := congrArg List.head? hct
          simpa using this.symm
        simp [CharClass.test, hc]
      · rw [matchItems_lits]
        exact h3
    have h1 : matchItems
        (RegexItem.group CharClass.notSlash :: ("/".data.map RegexItem.lit ++
          (RegexItem.group CharClass.notSlash :: ("/pull/".data.map RegexItem.lit ++
            [RegexItem.group CharClass.digit]))))
        (owner.data ++ ("/".data ++ (repo.data ++ ("/pull/".data ++ (n.data ++ rest.data)))))
        = some [owner.data, repo.data, n.data] := by
      apply matchItems_group CharClass.notSlash _ owner.data _ _ howner.1
        (notSlash_of_not_mem _ howner.2)
      · intro c t hct
        have hc : c = '/' := by
          have := congrArg List.head? hct
          simpa using this.symm
        simp [CharClass.test, hc]
      · rw [matchItems_lits]
        exact h2
    have h0 : matchItems prUrlRegex
        ("github.com/".data ++ (owner.data ++ ("/".data ++ (repo.data ++
          ("/pull/".data ++ (n.data ++ rest.data))))))
        = some [owner.data, repo.data, n.data] := by
      rw [prUrlRegex_eq, matchItems_lits]
      exact h1
    have hdata : ("https://github.com/" ++ owner ++ "/" ++ repo ++ "/pull/" ++ n ++ rest).data
        = 'h' :: 't' :: 't' :: 'p' :: 's' :: ':' :: '/' :: '/' ::
          ("github.com/".data ++ (owner.data ++ ("/".data ++ (repo.data ++
            ("/pull/".data ++ (n.data ++ rest.data)))))) := by
      simp [String.data_append]
    have hsearch : searchItems prUrlRegex
        ("https://github.com/" ++ owner ++ "/" ++ repo ++ "/pull/" ++ n ++ rest).data
        = some [owner.data, repo.data, n.data] := by
      rw [hdata, searchItems_skip _ _ (by decide), searchItems_skip _ _ (by decide),
        searchItems_skip _ _ (by decide), searchItems_skip _ _ (by decide),
        searchItems_skip _ _ (by decide), searchItems_skip _ _ (by decide),
        searchItems_skip _ _ (by decide), searchItems_skip _ _ (by decide)]
      exact searchItems_hit _ _ _ h0
    unfold extractRepoInfo
    rw [hsearch]
  · intro hno
    cases hs : searchItems prUrlRegex prUrl.data with
    | none => simp [extractRepoInfo, hs]
    | some caps =>
      exfalso
      apply hno
      obtain ⟨pre, s0, hpre, hm0⟩ := searchItems_sound _ _ _ hs
      rw [prUrlRegex_eq] at hm0
      obtain ⟨s1, hs1, hm1⟩ := matchItems_lits_sound _ _ _ _ hm0
      obtain ⟨x, s2, r2, hs2, hx, hxc, hm2, _⟩ := matchItems_group_sound _ _ _ _ hm1
      obtain ⟨s3, hs3, hm3⟩ := matchItems_lits_sound _ _ _ _ hm2
      obtain ⟨y, s4, r4, hs4, hy, hyc, hm4, _⟩ := matchItems_group_sound _ _ _ _ hm3
      obtain ⟨s5, hs5, hm5⟩ := matchItems_lits_sound _ _ _ _ hm4
      obtain ⟨ds, s6, r6, hs6, hds, hdc, _, _⟩ := matchItems_group_sound _ _ _ _ hm5
      cases ds with
      | nil => exact absurd rfl hds
      | cons d ds' =>
        refine ⟨pre, x, y, d, ds' ++ s6, ?_, hx, not_mem_of_notSlash _ hxc, hy,
          not_mem_of_notSlash _ hyc, ?_⟩
        · rw [hpre, hs1, hs2, hs3, hs4, hs5, hs6]
          simp [List.append_assoc]
        · have := hdc d (List.mem_cons_self _ _)
          simpa [CharClass.test] using this

/-- Witness for `repo_info_extraction`: the URL of a PR's files tab, and the
empty string. -/
theorem repo_info_extraction_witness :
    extractRepoInfo ("https://github.com/" ++ "owner" ++ "/" ++ "repo" ++ "/pull/" ++ "123"
        ++ "/files") = some { owner := "owner", repo := "repo", prNumber := "123" } ∧
    extractRepoInfo "" = none :=
  ⟨(repo_info_extraction "owner" "repo" "123" "/files" "").1 (by decide) (by decide)
      (by decide)
      (by
        intro c t h
        have hc : c = '/' := by
          have := congrArg List.head? h
          simpa using this.symm
        rw [hc]
        decide),
   (repo_info_extraction "owner" "repo" "123" "/files" "").2
      (by
        rintro ⟨pre, x, y, d, post, h, _⟩
        have hlen := congrArg List.length h
        simp at hlen
        omega)⟩

/-! ## Numbers: bounds on rounded operations -/

/-- A positive number `n` has `b + 1` binary digits with `2^b ≤ n < 2^(b+1)`. -/
theorem bitLength_spec (fuel n : Nat) (hn : 0 < n) (hfuel : n ≤ fuel) :
    ∃ b, bitLength fuel n = b + 1 ∧ 2 ^ b ≤ n ∧ n < 2 ^ (b + 1) := by
  induction fuel generalizing n with
  | zero => omega
  | succ f ih =>
    have hne : n ≠ 0 := by omega
    simp only [bitLength, hne, if_false]
    by_cases h1 : n / 2 = 0
    · have hn1 : n = 1 := by omega
      refine ⟨0, ?_, by simp [hn1], by simp [hn1]⟩
      rw [h1]
      cases f <;> simp [bitLength]
    · have hpos : 0 < n / 2 := Nat.pos_of_ne_zero h1
      obtain ⟨b, hb, hlo, hhi⟩ := ih (n / 2) hpos (by omega)
      refine ⟨b + 1, by rw [hb], ?_, ?_⟩
      · rw [pow_succ]
        omega
      · rw [pow_succ] at hhi ⊢
        rw [pow_succ]
        omega

/-- The nearest integer to `a / d` is at most `m` when `a / d ≤ m`. -/
theorem roundHalfEven_le (a d m : Nat) (hd : 0 < d) (h : a ≤ m * d) :
    roundHalfEven a d ≤ m := by
  have hq : a / d ≤ m := by
    calc a / d ≤ (m * d) / d := Nat.div_le_div_right h
      _ = m := Nat.mul_div_cancel _ hd
  by_cases hlt : a / d < m
  · unfold roundHalfEven
    simp only
    split
    · omega
    · split
      · omega
      · split <;> omega
  · have heq : a / d = m := by omega
    have hmod : a % d = 0 := by
      have := Nat.div_add_mod a d
      rw [heq] at this
      have h2 : d * m = m * d := Nat.mul_comm _ _
      omega
    unfold roundHalfEven
    simp only [hmod, heq]
    simp [hd]

/-- The nearest integer to `a / d` is at least `m` when `m ≤ a / d`. -/
theorem le_roundHalfEven (a d m : Nat) (hd : 0 < d) (h : m * d ≤ a) :
    m ≤ roundHalfEven a d := by
  have hq : m ≤ a / d := (Nat.le_div_iff_mul_le hd).mpr h
  unfold roundHalfEven
  simp only
  split
  · exact hq
  · split
    · omega
    · split <;> omega

/-- The two shapes of a rounded positive fraction, each with the scaled value
at least `2^52`. -/
theorem roundToDouble_cases (n d : Nat) (hn : 0 < n) (hd : 0 < d) :
    (∃ k : Nat, roundToDouble n d = ⟨roundHalfEven (n * 2 ^ k) d, 2 ^ k⟩ ∧
        d * 2 ^ 52 ≤ n * 2 ^ k) ∨
    (∃ j : Nat, 0 < j ∧ roundToDouble n d = ⟨roundHalfEven n (d * 2 ^ j) * 2 ^ j, 1⟩ ∧
        d * 2 ^ j * 2 ^ 52 ≤ n) := by
  obtain ⟨b1, hb1, hn1, hn2⟩ := bitLength_spec n n hn (Nat.le_refl _)
  obtain ⟨b2, hb2, hd1, hd2⟩ := bitLength_spec d d hd (Nat.le_refl _)
  have hn0 : n ≠ 0 := by omega
  unfold roundToDouble
  simp only [hn0, if_false, hb1, hb2]
  by_cases hle : b2 ≤ b1
  · obtain ⟨m, rfl⟩ : ∃ m, b1 = b2 + m := ⟨b1 - b2, by omega⟩
    have he0 : ((b2 + m + 1 : Nat) : Int) - ((b2 + 1 : Nat) : Int) = (m : Int) := by
      push_cast; ring
    rw [he0]
    simp only [Int.natCast_nonneg, if_true, Int.toNat_ofNat]
    by_cases hc : d * 2 ^ m ≤ n
    · simp only [hc, if_true]
      by_cases hm : m ≤ 52
      · left
        have hk : (0 : Int) ≤ 52 - (m : Int) := by omega
        have hkn : (52 - (m : Int)).toNat = 52 - m := by omega
        refine ⟨52 - m, ?_, ?_⟩
        · rw [if_pos hk, hkn]
        · calc d * 2 ^ 52 = d * 2 ^ m * 2 ^ (52 - m) := by
                rw [Nat.mul_assoc, ← pow_add]; congr 2; omega
            _ ≤ n * 2 ^ (52 - m) := Nat.mul_le_mul_right _ hc
      · right
        have hk : ¬ (0 : Int) ≤ 52 - (m : Int) := by omega
        have hkn : (-(52 - (m : Int))).toNat = m - 52 := by omega
        refine ⟨m - 52, by omega, ?_, ?_⟩
        · rw [if_neg hk, hkn]
        · calc d * 2 ^ (m - 52) * 2 ^ 52 = d * 2 ^ m := by
                rw [Nat.mul_assoc, ← pow_add]; congr 2; omega
            _ ≤ n := hc
    · simp only [hc, if_false]
      by_cases hm : m ≤ 53
      · left
        have hk : (0 : Int) ≤ 52 - ((m : Int) - 1) := by omega
        have hkn : (52 - ((m : Int) - 1)).toNat = 53 - m := by omega
        refine ⟨53 - m, ?_, ?_⟩
        · rw [if_pos hk, hkn]
        · have h1 : d * 2 ^ 52 ≤ 2 ^ (b2 + 1) * 2 ^ 52 := Nat.mul_le_mul_right _ (Nat.le_of_lt hd2)
          have h2 : 2 ^ (b2 + 1) * 2 ^ 52 = 2 ^ (b2 + m) * 2 ^ (53 - m) := by
            rw [← pow_add, ← pow_add]; congr 1; omega
          have h3 : 2 ^ (b2 + m) * 2 ^ (53 - m) ≤ n * 2 ^ (53 - m) := Nat.mul_le_mul_right _ hn1
          omega
      · right
        have hk : ¬ (0 : Int) ≤ 52 - ((m : Int) - 1) := by omega
        have hkn : (-(52 - ((m : Int) - 1))).toNat = m - 53 := by omega
        refine ⟨m - 53, by omega, ?_, ?_⟩
        · rw [if_neg hk, hkn]
        · have h1 : d * 2 ^ (m - 53) * 2 ^ 52 = d * 2 ^ (m - 1) := by
            rw [Nat.mul_assoc, ← pow_add]; congr 2; omega
          have h2 : d * 2 ^ (m - 1) ≤ 2 ^ (b2 + 1) * 2 ^ (m - 1) :=
            Nat.mul_le_mul_right _ (Nat.le_of_lt hd2)
          have h3 : 2 ^ (b2 + 1) * 2 ^ (m - 1) = 2 ^ (b2 + m) := by
            rw [← pow_add]; congr 1; omega
          omega
  · obtain ⟨m, rfl, hmpos⟩ : ∃ m, b2 = b1 + m ∧ 0 < m := ⟨b2 - b1, by omega, by omega⟩
    have he0 : ((b1 + 1 : Nat) : Int) - ((b1 + m + 1 : Nat) : Int) = -(m : Int) := by
      push_cast; ring
    rw [he0]
    have hneg : ¬ (0 : Int) ≤ -(m : Int) := by omega
    have hmn : (- -(m : Int)).toNat = m := by omega
    simp only [hneg, if_false, hmn]
    left
    by_cases hc : d ≤ n * 2 ^ m
    · simp only [hc, if_true]
      have hk : (0 : Int) ≤ 52 - -(m : Int) := by omega
      have hkn : (52 - -(m : Int)).toNat = 52 + m := by omega
      refine ⟨52 + m, ?_, ?_⟩
      · rw [if_pos hk, hkn]
      · calc d * 2 ^ 52 ≤ n * 2 ^ m * 2 ^ 52 := Nat.mul_le_mul_right _ hc
          _ = n * 2 ^ (52 + m) := by rw [Nat.mul_assoc, ← pow_add]; congr 2; omega
    · simp only [hc, if_false]
      have hk : (0 : Int) ≤ 52 - (-(m : Int) - 1) := by omega
      have hkn : (52 - (-(m : Int) - 1)).toNat = 53 + m := by omega
      refine ⟨53 + m, ?_, ?_⟩
      · rw [if_pos hk, hkn]
      · have h1 : d * 2 ^ 52 ≤ 2 ^ (b1 + m + 1) * 2 ^ 52 := Nat.mul_le_mul_right _ (Nat.le_of_lt hd2)
        have h2 : 2 ^ (b1 + m + 1) * 2 ^ 52 = 2 ^ b1 * 2 ^ (53 + m) := by
          rw [← pow_add, ← pow_add]; congr 1; omega
        have h3 : 2 ^ b1 * 2 ^ (53 + m) ≤ n * 2 ^ (53 + m) := Nat.mul_le_mul_right _ hn1
        omega

/-- A positive fraction below `2^(53-B)` is rounded at a scale of at least
`2^B`. -/
theorem roundToDouble_scale (n d B : Nat) (hn : 0 < n) (hd : 0 < d)
    (hup : n * 2 ^ B < 2 ^ 53 * d) :
    ∃ k, B ≤ k ∧ roundToDouble n d = ⟨roundHalfEven (n * 2 ^ k) d, 2 ^ k⟩ := by
  rcases roundToDouble_cases n d hn hd with ⟨k, hk, hlow⟩ | ⟨j, hj, _, hlow⟩
  · refine ⟨k, ?_, hk⟩
    by_contra hlt
    have hkB : k < B := by omega
    have h2 : 2 ≤ 2 ^ (B - k) := by
      calc 2 = 2 ^ 1 := rfl
        _ ≤ 2 ^ (B - k) := Nat.pow_le_pow_right (by decide) (by omega)
    have h3 : n * 2 ^ B = n * 2 ^ k * 2 ^ (B - k) := by
      rw [Nat.mul_assoc, ← pow_add]
      congr 2
      omega
    have h4 : d * 2 ^ 52 * 2 ≤ n * 2 ^ k * 2 ^ (B - k) := Nat.mul_le_mul hlow h2
    have h5 : (2 : Nat) ^ 53 = 2 ^ 52 * 2 := by norm_num
    have h6 : 2 ^ 53 * d = d * 2 ^ 52 * 2 := by rw [h5]; ring
    omega
  · exfalso
    have h2 : 2 ≤ 2 ^ j := by
      calc 2 = 2 ^ 1 := rfl
        _ ≤ 2 ^ j := Nat.pow_le_pow_right (by decide) hj
    have h3 : d * 2 * 2 ^ 52 ≤ d * 2 ^ j * 2 ^ 52 :=
      Nat.mul_le_mul_right _ (Nat.mul_le_mul_left _ h2)
    have h4 : n ≤ n * 2 ^ B := Nat.le_mul_of_pos_right _ (Nat.pos_pow_of_pos _ (by decide))
    have h5 : (2 : Nat) ^ 53 * d = d * 2 * 2 ^ 52 := by ring
    omega

/-- Rounding does not cross a bound `A / 2^B` with `A < 2^53` from below. -/
theorem roundToDouble_le_dyadic (n d A B : Nat) (hd : 0 < d) (hA : A < 2 ^ 53)
    (h : n * 2 ^ B ≤ A * d) :
    (roundToDouble n d).num * 2 ^ B ≤ A * (roundToDouble n d).den := by
  by_cases hn : n = 0
  · simp [roundToDouble, hn]
  have hup : n * 2 ^ B < 2 ^ 53 * d :=
    Nat.lt_of_le_of_lt h (Nat.mul_lt_mul_of_pos_right hA hd)
  obtain ⟨k, hBk, hk⟩ := roundToDouble_scale n d B (Nat.pos_of_ne_zero hn) hd hup
  rw [hk]
  simp only
  have hsplit : (2 : Nat) ^ k = 2 ^ (k - B) * 2 ^ B := by
    rw [← pow_add]
    congr 1
    omega
  have hle : roundHalfEven (n * 2 ^ k) d ≤ A * 2 ^ (k - B) := by
    apply roundHalfEven_le _ _ _ hd
    calc n * 2 ^ k = n * 2 ^ B * 2 ^ (k - B) := by rw [hsplit]; ring
      _ ≤ A * d * 2 ^ (k - B) := Nat.mul_le_mul_right _ h
      _ = A * 2 ^ (k - B) * d := by ring
  calc roundHalfEven (n * 2 ^ k) d * 2 ^ B ≤ A * 2 ^ (k - B) * 2 ^ B :=
        Nat.mul_le_mul_right _ hle
    _ = A * 2 ^ k := by rw [hsplit]; ring

/-- Rounding does not cross a bound `A / 2^B` from above, for fractions below
`2^(53-B)`. -/
theorem le_roundToDouble_dyadic (n d A B : Nat) (hd : 0 < d)
    (hlow : A * d ≤ n * 2 ^ B) (hup : n * 2 ^ B < 2 ^ 53 * d) :
    A * (roundToDouble n d).den ≤ (roundToDouble n d).num * 2 ^ B := by
  by_cases hn : n = 0
  · have hA : A = 0 := by
      rw [hn] at hlow
      simp at hlow
      rcases hlow with h | h
      · exact h
      · omega
    simp [hA]
  obtain ⟨k, hBk, hk⟩ := roundToDouble_scale n d B (Nat.pos_of_ne_zero hn) hd hup
  rw [hk]
  simp only
  have hsplit : (2 : Nat) ^ k = 2 ^ (k - B) * 2 ^ B := by
    rw [← pow_add]
    congr 1
    omega
  have hle : A * 2 ^ (k - B) ≤ roundHalfEven (n * 2 ^ k) d := by
    apply le_roundHalfEven _ _ _ hd
    calc A * 2 ^ (k - B) * d = A * d * 2 ^ (k - B) := by ring
      _ ≤ n * 2 ^ B * 2 ^ (k - B) := Nat.mul_le_mul_right _ hlow
      _ = n * 2 ^ k := by rw [hsplit]; ring
  calc A * 2 ^ k = A * 2 ^ (k - B) * 2 ^ B := by rw [hsplit]; ring
    _ ≤ roundHalfEven (n * 2 ^ k) d * 2 ^ B := Nat.mul_le_mul_right _ hle

/-- The product computed for the percentage stays below `100 * A / 2^B` when
the exact quotient is at most `A / 2^B`. -/
theorem progress_product_le (c t A B : Nat) (ht : 0 < t) (hA : 100 * A < 2 ^ 53)
    (h : c * 2 ^ B ≤ A * t) :
    (JsNumber.mul (JsNumber.div (JsNumber.ofNat c) (JsNumber.ofNat t))
        (JsNumber.ofNat 100)).num * 2 ^ B
      ≤ 100 * A * (JsNumber.mul (JsNumber.div (JsNumber.ofNat c) (JsNumber.ofNat t))
        (JsNumber.ofNat 100)).den := by
  simp only [JsNumber.mul, JsNumber.div, JsNumber.ofNat, Nat.mul_one, Nat.one_mul]
  have hx := roundToDouble_le_dyadic c t A B ht (by omega) h
  have hxd := roundToDouble_den_pos c t
  apply roundToDouble_le_dyadic _ _ _ _ hxd hA
  calc (roundToDouble c t).num * 100 * 2 ^ B = 100 * ((roundToDouble c t).num * 2 ^ B) := by ring
    _ ≤ 100 * (A * (roundToDouble c t).den) := Nat.mul_le_mul_left _ hx
    _ = 100 * A * (roundToDouble c t).den := by ring

/-- The product computed for the percentage stays above `100 * A / 2^B` when
the exact quotient is at least `A / 2^B` and at most 1. -/
theorem le_progress_product (c t A B : Nat) (ht : 0 < t) (hB : B ≤ 46) (hct : c ≤ t)
    (h : A * t ≤ c * 2 ^ B) :
    100 * A * (JsNumber.mul (JsNumber.div (JsNumber.ofNat c) (JsNumber.ofNat t))
        (JsNumber.ofNat 100)).den
      ≤ (JsNumber.mul (JsNumber.div (JsNumber.ofNat c) (JsNumber.ofNat t))
        (JsNumber.ofNat 100)).num * 2 ^ B := by
  simp only [JsNumber.mul, JsNumber.div, JsNumber.ofNat, Nat.mul_one, Nat.one_mul]
  have hpow : 100 * 2 ^ B < 2 ^ 53 := by
    have h1 : (2 : Nat) ^ B ≤ 2 ^ 46 := Nat.pow_le_pow_right (by decide) hB
    have h2 : (100 : Nat) * 2 ^ 46 < 2 ^ 53 := by norm_num
    omega
  have hup : c * 2 ^ B < 2 ^ 53 * t := by
    have h1 : c * 2 ^ B ≤ t * 2 ^ B := Nat.mul_le_mul_right _ hct
    have h2 : t * 2 ^ B < t * 2 ^ 53 := Nat.mul_lt_mul_of_pos_left (by omega) ht
    have h3 : t * 2 ^ 53 = 2 ^ 53 * t := Nat.mul_comm _ _
    omega
  have hx := le_roundToDouble_dyadic c t A B ht h hup
  have hx1 := roundToDouble_le_dyadic c t 1 0 ht (by norm_num) (by simpa using hct)
  simp only [pow_zero, Nat.mul_one, Nat.one_mul] at hx1
  have hxd := roundToDouble_den_pos c t
  apply le_roundToDouble_dyadic _ _ _ _ hxd
  · calc 100 * A * (roundToDouble c t).den = 100 * (A * (roundToDouble c t).den) := by ring
      _ ≤ 100 * ((roundToDouble c t).num * 2 ^ B) := Nat.mul_le_mul_left _ hx
      _ = (roundToDouble c t).num * 100 * 2 ^ B := by ring
  · calc (roundToDouble c t).num * 100 * 2 ^ B
          = (roundToDouble c t).num * (100 * 2 ^ B) := by ring
      _ ≤ (roundToDouble c t).den * (100 * 2 ^ B) := Nat.mul_le_mul_right _ hx1
      _ < (roundToDouble c t).den * 2 ^ 53 := Nat.mul_lt_mul_of_pos_left hpow hxd
      _ = 2 ^ 53 * (roundToDouble c t).den := Nat.mul_comm _ _

/-- The percentage is at most 100 when `completed ≤ total`. -/
theorem progressPercentage_le (c t : Nat) (ht : 0 < t) (hct : c ≤ t) :
    progressPercentage c t ≤ 100 := by
  have h := progress_product_le c t 1 0 ht (by norm_num) (by simpa using hct)
  have hd : 0 < (JsNumber.mul (JsNumber.div (JsNumber.ofNat c) (JsNumber.ofNat t))
      (JsNumber.ofNat 100)).den := roundToDouble_den_pos _ _
  unfold progressPercentage mathRound
  simp only [pow_zero, Nat.mul_one] at h
  apply Nat.le_of_lt_succ
  rw [Nat.div_lt_iff_lt_mul (by omega)]
  omega

/-- The percentage is 100 when all groups are completed. -/
theorem progressPercentage_all (t : Nat) (ht : 0 < t) : progressPercentage t t = 100 := by
  apply Nat.le_antisymm (progressPercentage_le t t ht (Nat.le_refl _))
  have h := le_progress_product t t 1 0 ht (by norm_num) (Nat.le_refl _) (by simp)
  have hd : 0 < (JsNumber.mul (JsNumber.div (JsNumber.ofNat t) (JsNumber.ofNat t))
      (JsNumber.ofNat 100)).den := roundToDouble_den_pos _ _
  unfold progressPercentage mathRound
  simp only [pow_zero, Nat.mul_one] at h
  rw [Nat.le_div_iff_mul_le (by omega)]
  omega

/-- The percentage is 0 when no group is completed. -/
theorem progressPercentage_none (t : Nat) : progressPercentage 0 t = 0 := by
  simp [progressPercentage, mathRound, JsNumber.mul, JsNumber.div, JsNumber.ofNat,
    roundToDouble]

/-- With fewer than 200 groups of which one is not completed, the percentage is
below 100. -/
theorem progressPercentage_lt (c t : Nat) (ht : t < 200) (hct : c < t) :
    progressPercentage c t < 100 := by
  have h := progress_product_le c t 1043308 20 (by omega) (by norm_num)
    (by norm_num; omega)
  have hd : 0 < (JsNumber.mul (JsNumber.div (JsNumber.ofNat c) (JsNumber.ofNat t))
      (JsNumber.ofNat 100)).den := roundToDouble_den_pos _ _
  unfold progressPercentage mathRound
  rw [Nat.div_lt_iff_lt_mul (by omega)]
  norm_num at h
  omega

/-- With fewer than 200 groups of which one is completed, the percentage is
above 0. -/
theorem progressPercentage_pos (c t : Nat) (ht : t < 200) (hc : 0 < c) (hct : c ≤ t) :
    0 < progressPercentage c t := by
  have h := le_progress_product c t 5269 20 (by omega) (by norm_num) hct
    (by norm_num; omega)
  have hd : 0 < (JsNumber.mul (JsNumber.div (JsNumber.ofNat c) (JsNumber.ofNat t))
      (JsNumber.ofNat 100)).den := roundToDouble_den_pos _ _
  unfold progressPercentage mathRound
  rw [Nat.lt_iff_add_one_le, Nat.le_div_iff_mul_le (by omega)]
  norm_num at h
  omega

/-! ## Client: bounds on the progress -/

/-- For a report with groups, the result of `calculateProgress` spelled out. -/
theorem calculateProgress_eq (report : Report) (groups : List GroupView)
    (h : report.minRequiredApprovals = some groups) :
    calculateProgress (some report)
      = { completed := (groups.filter (fun g => !g.needsApproval)).length
          total := groups.length
          percentage :=
            if groups.length > 0 then
              progressPercentage (groups.filter (fun g => !g.needsApproval)).length groups.length
            else 0 } := by
  simp [calculateProgress, progressPercentage, h]

/-- C22: for every report, `calculateProgress` returns `0 ≤ completed ≤ total`
and an integer percentage with `0 ≤ percentage ≤ 100` (both are natural
numbers), and `completed` plus the number of groups with `needsApproval` true
equals `total`. -/
theorem calculateProgress_bounds (result : Option Report) :
    0 ≤ (calculateProgress result).completed ∧
    (calculateProgress result).completed ≤ (calculateProgress result).total ∧
    0 ≤ (calculateProgress result).percentage ∧
    (calculateProgress result).percentage ≤ 100 ∧
    (calculateProgress result).completed
        + ((result.bind (fun r => r.minRequiredApprovals)).getD []).countP
            (fun g => g.needsApproval)
      = (calculateProgress result).total := by
  cases result with
  | none => simp [calculateProgress]
  | some report =>
    cases h : report.minRequiredApprovals with
    | none => simp [calculateProgress, h]
    | some groups =>
      have hb : ((some report).bind fun r => r.minRequiredApprovals).getD [] = groups := by
        simp [h]
      rw [calculateProgress_eq report groups h, hb]
      refine ⟨Nat.zero_le _, List.length_filter_le _ _, Nat.zero_le _, ?_, ?_⟩
      · show (if groups.length > 0 then
            progressPercentage (groups.filter (fun g => !g.needsApproval)).length groups.length
          else 0) ≤ 100
        split
        · rename_i hpos
          exact progressPercentage_le _ _ hpos (List.length_filter_le _ _)
        · exact Nat.zero_le _
      · show (groups.filter (fun g => !g.needsApproval)).length
            + groups.countP (fun g => g.needsApproval) = groups.length
        rw [← List.countP_eq_length_filter,
          List.length_eq_countP_add_countP (fun g => !g.needsApproval) groups]
        congr 1
        apply List.countP_congr
        intro g _
        simp

/-- The progress of a sample report with `a` satisfied and `b` pending
groups. -/
theorem calculateProgress_reportOf (a b : Nat) :
    calculateProgress (some (reportOf a b))
      = { completed := a, total := a + b,
          percentage := if a + b > 0 then progressPercentage a (a + b) else 0 } := by
  have hf : ((List.replicate a (plainGroup false) ++ List.replicate b (plainGroup true)).filter
      (fun g => !g.needsApproval)).length = a := by
    simp [List.filter_append, List.filter_replicate, plainGroup]
  rw [calculateProgress_eq (reportOf a b) _ rfl, hf]
  simp

/-- C23 (as stated, refuted): with 199 of 200 groups satisfied the percentage
is 100 although not every group is satisfied, and with 1 of 201 groups
satisfied the percentage is 0 although one group is satisfied. -/
theorem full_or_empty_percentage_counterexample :
    ¬ ((calculateProgress (some (reportOf 199 1))).percentage = 100 ↔
        (calculateProgress (some (reportOf 199 1))).completed
          = (calculateProgress (some (reportOf 199 1))).total) ∧
    ¬ ((calculateProgress (some (reportOf 1 200))).percentage = 0 ↔
        (calculateProgress (some (reportOf 1 200))).completed = 0) := by
  rw [calculateProgress_reportOf, calculateProgress_reportOf]
  have h1 : progressPercentage 199 200 = 100 := by decide
  have h2 : progressPercentage 1 201 = 0 := by decide
  simp [h1, h2]

/-- C23 (amended): for every report with at least one group, the percentage is
100 when every group is satisfied and 0 when no group is satisfied; for
reports with fewer than 200 groups the converses hold as well, so that the
percentage is 100 iff `completed = total` and 0 iff `completed = 0`. -/
theorem full_or_empty_percentage (report : Report) (groups : List GroupView)
    (h : report.minRequiredApprovals = some groups) (hne : groups ≠ []) :
    ((calculateProgress (some report)).completed = (calculateProgress (some report)).total →
      (calculateProgress (some report)).percentage = 100) ∧
    ((calculateProgress (some report)).completed = 0 →
      (calculateProgress (some report)).percentage = 0) ∧
    (groups.length < 200 →
      ((calculateProgress (some report)).percentage = 100 ↔
        (calculateProgress (some report)).completed
          = (calculateProgress (some report)).total) ∧
      ((calculateProgress (some report)).percentage = 0 ↔
        (calculateProgress (some report)).completed = 0)) := by
  have hpos : groups.length > 0 := List.length_pos.mpr hne
  have hle : (groups.filter (fun g => !g.needsApproval)).length ≤ groups.length :=
    List.length_filter_le _ _
  rw [calculateProgress_eq report groups h]
  simp only [hpos, if_true]
  have hall : (groups.filter (fun g => !g.needsApproval)).length = groups.length →
      progressPercentage (groups.filter (fun g => !g.needsApproval)).length groups.length
        = 100 := by
    intro heq
    rw [heq]
    exact progressPercentage_all _ hpos
  have hzero : (groups.filter (fun g => !g.needsApproval)).length = 0 →
      progressPercentage (groups.filter (fun g => !g.needsApproval)).length groups.length
        = 0 := by
    intro heq
    rw [heq]
    exact progressPercentage_none _
  refine ⟨hall, hzero, ?_⟩
  intro hsmall
  refine ⟨⟨?_, hall⟩, ⟨?_, hzero⟩⟩
  · intro hp
    by_contra hneq
    have hlt := progressPercentage_lt _ _ hsmall (Nat.lt_of_le_of_ne hle hneq)
    omega
  · intro hp
    by_contra hneq
    have hgt := progressPercentage_pos _ _ hsmall (Nat.pos_of_ne_zero hneq) hle
    omega

/-- Witness for `full_or_empty_percentage`: a report with 3 groups, 2 of them
satisfied. -/
theorem full_or_empty_percentage_witness :
    ((calculateProgress (some (reportOf 2 1))).percentage = 100 ↔
        (calculateProgress (some (reportOf 2 1))).completed
          = (calculateProgress (some (reportOf 2 1))).total) ∧
    ((calculateProgress (some (reportOf 2 1))).percentage = 0 ↔
        (calculateProgress (some (reportOf 2 1))).completed = 0) :=
  (full_or_empty_percentage (reportOf 2 1)
    (List.replicate 2 (plainGroup false) ++ List.replicate 1 (plainGroup true)) rfl
    (by decide)).2.2 (by decide)

end PRChecker
